import Mathlib

/-!
Verification development for the `lets-build-a-database` query engine.

The Rust sources are shallowly embedded below.  `serde_json::Value` becomes
`LBDB.Value` (f64 payloads are carried as their IEEE-754 bit pattern, a `Nat`
below `2^64`); machine integers become `Int`/`Nat`; fallible Rust code returns
`Except`; a Rust `panic!`/`todo!`/`.unwrap()` failure is the `Failure.panicked`
outcome.  The `DefaultHasher` hash function is threaded through as an explicit
parameter `h : Value → Nat`, which models its only used contract: it is a
deterministic function of the hashed value.
-/

namespace LBDB

/-- Model of `serde_json`'s number type: an integer payload (covering the
`PosInt`/`NegInt` variants by their mathematical value) or an f64 carried as
its 64-bit IEEE-754 bit pattern. -/
inductive JsonNum where
  | int (i : Int)
  | float (bits : Nat)
deriving DecidableEq, Repr

/-- Model of `serde_json::Value`.  Objects are association lists; the engine
only ever builds them from parsed JSON objects, whose `BTreeMap` representation
corresponds to a key-sorted, duplicate-free association list. -/
inductive Value where
  | null
  | bool (b : Bool)
  | num (n : JsonNum)
  | str (s : String)
  | arr (items : List Value)
  | obj (fields : List (String × Value))
deriving Repr

mutual
/-- Structural boolean equality on `Value` (used to derive decidable equality;
distinct from `Value.rustEq` below, which follows IEEE float semantics). -/
def Value.beq : Value → Value → Bool
  | .null, .null => true
  | .bool a, .bool b => a == b
  | .num a, .num b => a == b
  | .str a, .str b => a == b
  | .arr a, .arr b => Value.listBeq a b
  | .obj a, .obj b => Value.fieldsBeq a b
  | _, _ => false

def Value.listBeq : List Value → List Value → Bool
  | [], [] => true
  | a :: as_, b :: bs => Value.beq a b && Value.listBeq as_ bs
  | _, _ => false

def Value.fieldsBeq : List (String × Value) → List (String × Value) → Bool
  | [], [] => true
  | (ka, va) :: as_, (kb, vb) :: bs =>
      ka == kb && Value.beq va vb && Value.fieldsBeq as_ bs
  | _, _ => false
end

mutual
theorem Value.beq_iff : ∀ a b : Value, Value.beq a b = true ↔ a = b
  | .null, .null => by simp [Value.beq]
  | .null, .bool _ | .null, .num _ | .null, .str _ | .null, .arr _ | .null, .obj _ =>
      by simp [Value.beq]
  | .bool _, .null | .bool _, .num _ | .bool _, .str _ | .bool _, .arr _ | .bool _, .obj _ =>
      by simp [Value.beq]
  | .num _, .null | .num _, .bool _ | .num _, .str _ | .num _, .arr _ | .num _, .obj _ =>
      by simp [Value.beq]
  | .str _, .null | .str _, .bool _ | .str _, .num _ | .str _, .arr _ | .str _, .obj _ =>
      by simp [Value.beq]
  | .arr _, .null | .arr _, .bool _ | .arr _, .num _ | .arr _, .str _ | .arr _, .obj _ =>
      by simp [Value.beq]
  | .obj _, .null | .obj _, .bool _ | .obj _, .num _ | .obj _, .str _ | .obj _, .arr _ =>
      by simp [Value.beq]
  | .bool a, .bool b => by simp [Value.beq]
  | .num a, .num b => by simp [Value.beq]
  | .str a, .str b => by simp [Value.beq]
  | .arr a, .arr b => by
      simp only [Value.beq, Value.arr.injEq]
      exact Value.listBeq_iff a b
  | .obj a, .obj b => by
      simp only [Value.beq, Value.obj.injEq]
      exact Value.fieldsBeq_iff a b

theorem Value.listBeq_iff : ∀ a b : List Value, Value.listBeq a b = true ↔ a = b
  | [], [] => by simp [Value.listBeq]
  | [], _ :: _ => by simp [Value.listBeq]
  | _ :: _, [] => by simp [Value.listBeq]
  | a :: as_, b :: bs => by
      simp only [Value.listBeq, Bool.and_eq_true, List.cons.injEq]
      exact and_congr (Value.beq_iff a b) (Value.listBeq_iff as_ bs)

theorem Value.fieldsBeq_iff :
    ∀ a b : List (String × Value), Value.fieldsBeq a b = true ↔ a = b
  | [], [] => by simp [Value.fieldsBeq]
  | [], _ :: _ => by simp [Value.fieldsBeq]
  | _ :: _, [] => by simp [Value.fieldsBeq]
  | (ka, va) :: as_, (kb, vb) :: bs => by
      simp only [Value.fieldsBeq, Bool.and_eq_true, List.cons.injEq, Prod.mk.injEq,
        beq_iff_eq]
      have h1 := Value.beq_iff va vb
      have h2 := Value.fieldsBeq_iff as_ bs
      tauto
end

instance : DecidableEq Value := fun a b => decidable_of_iff _ (Value.beq_iff a b)

/-- Bit-pattern test for an IEEE-754 binary64 NaN. -/
def f64IsNaN (bits : Nat) : Bool :=
  (bits >>> 52) % 2048 == 2047 && bits % 2 ^ 52 != 0

/-- Bit-pattern test for an IEEE-754 binary64 zero (either sign). -/
def f64IsZero (bits : Nat) : Bool :=
  bits % 2 ^ 63 == 0

/-- IEEE-754 equality of two binary64 bit patterns: NaN is unequal to
everything, the two zeroes are equal, every other value has a unique
representation. -/
def f64Eq (a b : Nat) : Bool :=
  !f64IsNaN a && !f64IsNaN b && (a == b || (f64IsZero a && f64IsZero b))

/-- Rust `PartialEq` on `serde_json::Number`: distinct variants are unequal,
floats compare by IEEE equality. -/
def JsonNum.rustEq : JsonNum → JsonNum → Bool
  | .int a, .int b => a == b
  | .float a, .float b => f64Eq a b
  | _, _ => false

mutual
/-- Rust `PartialEq` on `serde_json::Value` (the `==` used by the engine):
structural, except that float payloads compare by IEEE equality. -/
def Value.rustEq : Value → Value → Bool
  | .null, .null => true
  | .bool a, .bool b => a == b
  | .num a, .num b => a.rustEq b
  | .str a, .str b => a == b
  | .arr a, .arr b => Value.listRustEq a b
  | .obj a, .obj b => Value.fieldsRustEq a b
  | _, _ => false

def Value.listRustEq : List Value → List Value → Bool
  | [], [] => true
  | a :: as_, b :: bs => a.rustEq b && Value.listRustEq as_ bs
  | _, _ => false

def Value.fieldsRustEq : List (String × Value) → List (String × Value) → Bool
  | [], [] => true
  | (ka, va) :: as_, (kb, vb) :: bs =>
      ka == kb && va.rustEq vb && Value.fieldsRustEq as_ bs
  | _, _ => false
end

/-- `serde_json::Number::as_i64`: an integer payload inside the `i64` range. -/
def JsonNum.as_i64 : JsonNum → Option Int
  | .int i => if -(2 ^ 63) ≤ i ∧ i < 2 ^ 63 then some i else none
  | .float _ => none

/-- `serde_json::Value::as_i64`. -/
def Value.as_i64 : Value → Option Int
  | .num n => n.as_i64
  | _ => none

/-- Shorthand for an integer-valued JSON number. -/
def Value.intNum (i : Int) : Value := .num (.int i)

abbrev TableName := String
abbrev ColumnName := String
abbrev TableAlias := String

/-- `types.rs`: a column reference, a name together with an optional table
alias; two references are equal iff both fields agree. -/
structure Column where
  name : ColumnName
  table_alias : Option TableAlias
deriving DecidableEq, Repr

/-- `types.rs`: a schema entry is either a column reference or a synthesised
name for a projected expression. -/
inductive SchemaColumn where
  | column (c : Column)
  | named (s : String)
deriving DecidableEq, Repr

/-- `types.rs`: an ordered list of schema columns. -/
structure Schema where
  columns : List SchemaColumn
deriving DecidableEq, Repr

/-- `types.rs`: a row is an ordered list of values. -/
structure Row where
  items : List Value
deriving DecidableEq, Repr

/-- `Schema::get_index_for_column`: index of the first `SchemaColumn::Column`
entry equal to the reference. -/
def Schema.get_index_for_column (schema : Schema) (column : Column) : Option Nat :=
  schema.columns.findIdx? fun sc =>
    match sc with
    | .column c => c = column
    | _ => false

/-- `Schema::get_index_for_named`. -/
def Schema.get_index_for_named (schema : Schema) (named : String) : Option Nat :=
  schema.columns.findIdx? fun sc =>
    match sc with
    | .named n => n = named
    | _ => false

/-- `Row::get_column`. -/
def Row.get_column (row : Row) (column : Column) (schema : Schema) : Option Value := do
  let index ← schema.get_index_for_column column
  row.items.get? index

/-- `Row::get_named`. -/
def Row.get_named (row : Row) (named : String) (schema : Schema) : Option Value := do
  let index ← schema.get_index_for_named named
  row.items.get? index

/-- `Row::extend`. -/
def Row.extendRow (row : Row) (other : Row) : Row :=
  { items := row.items ++ other.items }

/-- `Schema::extend`. -/
def Schema.extendSchema (schema : Schema) (other : Schema) : Schema :=
  { columns := schema.columns ++ other.columns }

/-- `types.rs`: the processed-row counter.  The Rust field is a `u64`; the
counter only ever increases by 1 at a time, so `Nat` models it exactly on
every run that does not overflow 2^64 increments. -/
structure Cost where
  rows_processed : Nat
deriving DecidableEq, Repr

def Cost.new : Cost := { rows_processed := 0 }

def Cost.increment_rows_processed (c : Cost) : Cost :=
  { rows_processed := c.rows_processed + 1 }

def Cost.extendCost (c : Cost) (other : Cost) : Cost :=
  { rows_processed := c.rows_processed + other.rows_processed }

/-- `types.rs`: the result of executing one operator. -/
structure QueryStep where
  schema : Schema
  rows : List Row
  cost : Cost
deriving DecidableEq, Repr

/-- `filter.rs`: evaluation-time filter errors. -/
inductive FilterError where
  | expectedInt (value : Value)
  | expectedBooleanType (value : Value)
deriving DecidableEq, Repr

/-- `query.rs`: the runtime error type.  The `query.rs` draft in the snapshot
declares the first three variants; the `filter.rs` draft additionally uses
`ArgumentNotFound` and `TypeMismatch`, so the union is embedded. -/
inductive QueryError where
  | columnNotFoundInSchema (column_name : Column)
  | indexNotFoundInSchema (index : Nat)
  | filterError (e : FilterError)
  | argumentNotFound
  | typeMismatch (expected : String)
deriving DecidableEq, Repr

/-- A Rust `panic!`/`todo!`/`.unwrap()` failure, kept distinct from the
`Result`-carried `QueryError`s. -/
inductive Failure where
  | qerr (e : QueryError)
  | panicked (msg : String)
deriving DecidableEq, Repr

/-- Outcome of running fallible engine code: a value, a propagated
`QueryError`, or a panic. -/
abbrev Outcome (α : Type) := Except Failure α

instance {ε α : Type} [DecidableEq ε] [DecidableEq α] : DecidableEq (Except ε α)
  | .ok a, .ok b =>
      if h : a = b then .isTrue (by rw [h]) else
        .isFalse (by intro hx; cases hx; exact h rfl)
  | .ok _, .error _ => .isFalse (by intro hx; cases hx)
  | .error _, .ok _ => .isFalse (by intro hx; cases hx)
  | .error e, .error f =>
      if h : e = f then .isTrue (by rw [h]) else
        .isFalse (by intro hx; cases hx; exact h rfl)

/-- `types.rs`: binary operators. -/
inductive Op where
  | equals
  | greaterThan
  | greaterThanOrEqual
  | lessThan
  | lessThanOrEqual
  | add
  | subtract
deriving DecidableEq, Repr

/-- `types.rs`: aggregate function names. -/
inductive AggregateFunctionName where
  | sum
deriving DecidableEq, Repr

/-- `types.rs`: function names. -/
inductive FunctionName where
  | aggregate (f : AggregateFunctionName)
deriving DecidableEq, Repr

mutual
/-- `types.rs`: the expression language of the later drafts
(`filter.rs`/`project.rs`).  The `Vec<Expr>` of `FunctionCall` arguments is a
mutually defined list type (`ExprArgs`) so that recursion through the
arguments is structural. -/
inductive Expr where
  | column (column : Column)
  | literal (literal : Value)
  | binaryOperation (left : Expr) (op : Op) (right : Expr)
  | nested (expr : Expr)
  | functionCall (function_name : FunctionName) (args : ExprArgs)

/-- The argument list of a function call. -/
inductive ExprArgs where
  | nil
  | cons (head : Expr) (tail : ExprArgs)
end

/-- `Vec::first` on an argument list. -/
def ExprArgs.head? : ExprArgs → Option Expr
  | .nil => none
  | .cons e _ => some e

/-- Two's-complement wrap-around into the `i64` range.  Rust's release builds
wrap here; debug builds panic on overflow.  Every theorem below that touches
arithmetic restricts attention to in-range results, where the two behaviours
agree with the mathematical sum. -/
def wrapI64 (i : Int) : Int := (i + 2 ^ 63) % 2 ^ 64 - 2 ^ 63

/-- `filter.rs`: `as_int`. -/
def as_int (value : Value) : Except FilterError Int :=
  match value.as_i64 with
  | some i => .ok i
  | none => .error (.expectedInt value)

/-- `filter.rs`: `match_op`, applying a binary operator to two evaluated
values. -/
def match_op (value : Value) (op : Op) (literal : Value) : Except FilterError Value :=
  match op with
  | .equals => .ok (.bool (value.rustEq literal))
  | .greaterThan => do
      let left ← as_int value
      let right ← as_int literal
      .ok (.bool (decide (left > right)))
  | .greaterThanOrEqual => do
      let left ← as_int value
      let right ← as_int literal
      .ok (.bool (decide (left ≥ right)))
  | .lessThan => do
      let left ← as_int value
      let right ← as_int literal
      .ok (.bool (decide (left < right)))
  | .lessThanOrEqual => do
      let left ← as_int value
      let right ← as_int literal
      .ok (.bool (decide (left ≤ right)))
  | .add => do
      let left ← as_int value
      let right ← as_int literal
      .ok (.intNum (wrapI64 (left + right)))
  | .subtract => do
      let left ← as_int value
      let right ← as_int literal
      .ok (.intNum (wrapI64 (left - right)))

/-- `filter.rs`: `evaluate_expr`, row-local expression evaluation.  Note that
the source hits `todo!("function call in evaluate_expr")` on any function
call, which is modelled as a panic outcome. -/
def evaluate_expr (row : Row) (schema : Schema) : Expr → Outcome Value
  | .binaryOperation left op right => do
      let l ← evaluate_expr row schema left
      let r ← evaluate_expr row schema right
      match match_op l op r with
      | .ok v => pure v
      | .error e => throw (.qerr (.filterError e))
  | .column column =>
      match row.get_column column schema with
      | some v => pure v
      | none => throw (.qerr (.columnNotFoundInSchema column))
  | .literal l => pure l
  | .nested e => evaluate_expr row schema e
  | .functionCall _ _ => throw (.panicked "function call in evaluate_expr")

/-- `filter.rs`: `apply_predicate`. -/
def apply_predicate (row : Row) (schema : Schema) (where_expr : Expr) : Outcome Bool := do
  match ← evaluate_expr row schema where_expr with
  | .bool b => pure b
  | other => throw (.qerr (.filterError (.expectedBooleanType other)))

/-- `filter.rs`: `evaluate_function_call` (aggregate context).  `sum` folds
`evaluate_expr` over every row, accumulating an `i64`. -/
def evaluate_function_call (function_name : FunctionName) (args : ExprArgs)
    (all_rows : List Row) (schema : Schema) : Outcome Value :=
  match function_name with
  | .aggregate .sum =>
    match args.head? with
    | none => throw (.qerr .argumentNotFound)
    | some expr => do
        let sum ← all_rows.foldlM
          (fun total all_row => do
            let value ← evaluate_expr all_row schema expr
            match value with
            | .num n =>
                match n.as_i64 with
                | some a => pure (wrapI64 (total + a))
                | none => throw (.qerr (.typeMismatch "i64"))
            | _ => throw (.qerr (.typeMismatch "i64")))
          (0 : Int)
        pure (.intNum sum)

/-- `filter.rs`: `evaluate_aggregate_expr`.  A bare column reference in
aggregate context is a `panic!` in the source. -/
def evaluate_aggregate_expr (all_rows : List Row) (schema : Schema) : Expr → Outcome Value
  | .binaryOperation left op right => do
      let l ← evaluate_aggregate_expr all_rows schema left
      let r ← evaluate_aggregate_expr all_rows schema right
      match match_op l op r with
      | .ok v => pure v
      | .error e => throw (.qerr (.filterError e))
  | .column _ => throw (.panicked "column in evaluate_aggregate_expr")
  | .literal l => pure l
  | .nested e => evaluate_aggregate_expr all_rows schema e
  | .functionCall function_name args =>
      evaluate_function_call function_name args all_rows schema

/-- Display form of a binary operator (`impl Display for Op` in `types.rs`). -/
def displayOp : Op → String
  | .equals => "equals"
  | .greaterThan => "greater_than"
  | .greaterThanOrEqual => "greater_than_or_equal"
  | .lessThan => "less_than"
  | .lessThanOrEqual => "less_than_or_equal"
  | .add => "add"
  | .subtract => "subtract"

/-- Display form of a function name (`impl Display` in `types.rs`). -/
def displayFunctionName : FunctionName → String
  | .aggregate .sum => "sum"

mutual
/-- Display form of a literal (`format!("{literal}")`, serde's JSON
rendering).  Exact float formatting and string escaping are not modelled: no
claim depends on synthesised schema labels. -/
def displayValue : Value → String
  | .null => "null"
  | .bool true => "true"
  | .bool false => "false"
  | .num (.int i) => toString i
  | .num (.float bits) => "float:" ++ toString bits
  | .str s => "\"" ++ s ++ "\""
  | .arr items => "[" ++ displayValueList items ++ "]"
  | .obj fields => "\x7b" ++ displayValueFields fields ++ "\x7d"

def displayValueList : List Value → String
  | [] => ""
  | [v] => displayValue v
  | v :: rest => displayValue v ++ "," ++ displayValueList rest

def displayValueFields : List (String × Value) → String
  | [] => ""
  | [(k, v)] => "\"" ++ k ++ "\":" ++ displayValue v
  | (k, v) :: rest => "\"" ++ k ++ "\":" ++ displayValue v ++ "," ++ displayValueFields rest
end

/-- `project.rs`: `index_for_expr`, computing the output schema entry for one
projected field. -/
def index_for_expr (field : Expr) (schema : Schema) : Outcome SchemaColumn :=
  match field with
  | .column column =>
      match schema.get_index_for_column column with
      | none => throw (.qerr (.columnNotFoundInSchema column))
      | some index =>
          match schema.columns.get? index with
          | none => throw (.qerr (.indexNotFoundInSchema index))
          | some sc => pure sc
  | .literal l => pure (.named (displayValue l))
  | .binaryOperation _ op _ => pure (.named (displayOp op))
  | .nested e => index_for_expr e schema
  | .functionCall fn _ => pure (.named (displayFunctionName fn))

/-- `project.rs`: `project_schema`. -/
def project_schema (schema : Schema) (fields : List Expr) : Outcome Schema := do
  let columns ← fields.mapM (fun field => index_for_expr field schema)
  pure { columns }

mutual
/-- `project.rs`: `is_aggregate_expr` — an expression is aggregate iff it
contains an aggregate function call anywhere. -/
def is_aggregate_expr : Expr → Bool
  | .column _ => false
  | .literal _ => false
  | .binaryOperation left _ right => is_aggregate_expr left || is_aggregate_expr right
  | .nested e => is_aggregate_expr e
  | .functionCall function_name args =>
      let is_aggregate_function :=
        match function_name with
        | .aggregate _ => true
      is_aggregate_function || is_aggregate_args args

/-- `args.iter().any(is_aggregate_expr)`. -/
def is_aggregate_args : ExprArgs → Bool
  | .nil => false
  | .cons e es => is_aggregate_expr e || is_aggregate_args es
end

/-- Lookup in the model of the `BTreeMap<usize, Value>` of precomputed
aggregate results (first match; keys are unique). -/
def aggGet : List (Nat × Value) → Nat → Option Value
  | [], _ => none
  | p :: m, k => if p.1 = k then some p.2 else aggGet m k

/-- `project.rs`: `project_field_row` — per output field, use the stored
aggregate value when present, else evaluate the field on this row. -/
def project_field_row (row : Row) (schema : Schema) (fields : List Expr)
    (aggregate_results : List (Nat × Value)) : Outcome Row := do
  let items ← fields.enum.mapM fun p =>
    match aggGet aggregate_results p.1 with
    | some v => pure v
    | none => evaluate_expr row schema p.2
  pure { items }

/-- `project.rs`: `project_fields`.  The aggregate pass stores one result per
aggregate field (and performs no cost increments); if every field is
aggregate a single row of totals is produced, else one output row per child
row, incrementing the cost once per child row. -/
def project_fields (rows : List Row) (schema : Schema) (fields : List Expr)
    (cost : Cost) : Outcome (List Row × Cost) := do
  let aggregate_results ← fields.enum.foldlM
    (fun acc p =>
      if is_aggregate_expr p.2 then do
        let v ← evaluate_aggregate_expr rows schema p.2
        pure (acc ++ [(p.1, v)])
      else pure acc)
    ([] : List (Nat × Value))
  if aggregate_results.length = fields.length then do
    let items ← fields.enum.mapM fun p =>
      match aggGet aggregate_results p.1 with
      | some v => pure v
      | none => throw (.panicked "aggregate result unwrap")
    pure ([⟨items⟩], cost)
  else do
    let out ← rows.foldlM
      (fun acc row => do
        let cost := acc.2.increment_rows_processed
        let r ← project_field_row row schema fields aggregate_results
        pure (acc.1 ++ [r], cost))
      (([] : List Row), cost)
    pure out

/-- `types.rs`: sort direction. -/
inductive Order where
  | asc
  | desc
deriving DecidableEq, Repr

/-- `types.rs`: one ORDER BY key. -/
structure OrderByExpr where
  column : Column
  order : Order
deriving DecidableEq, Repr

/-- `order_by.rs`: `flip`. -/
def flip : Ordering → Ordering
  | .eq => .eq
  | .lt => .gt
  | .gt => .lt

/-- The signed comparison key of `f64::total_cmp` as a function of the 64-bit
pattern: interpret the bits as an `i64` and, when negative, flip the low 63
bits. -/
def totalCmpKey (x : Nat) : Int :=
  if x < 2 ^ 63 then (x : Int) else ((Nat.xor x (2 ^ 63 - 1) : Nat) : Int) - 2 ^ 64

/-- Rust `f64::total_cmp` on two bit patterns. -/
def totalCmpBits (a b : Nat) : Ordering :=
  compare (totalCmpKey a) (totalCmpKey b)

/-- `serde_json::Number::as_f64`: never fails; the `i64 as f64` cast is the
explicit parameter `itof` (its rounding behaviour is outside the integer
model). -/
def JsonNum.as_f64 (itof : Int → Nat) : JsonNum → Nat
  | .int i => itof i
  | .float bits => bits

/-- `order_by.rs`: `compare_values`.  Per-kind comparison; a kind mismatch is
the source's `todo!("Unsupported ordering")` panic, modelled as `none`. -/
def compare_values (itof : Int → Nat) : Value → Value → Option Ordering
  | .null, .null => some .eq
  | .bool a, .bool b => some (compare a b)
  | .num a, .num b =>
      match a.as_i64, b.as_i64 with
      | some x, some y => some (compare x y)
      | _, _ => some (totalCmpBits (a.as_f64 itof) (b.as_f64 itof))
  | .str a, .str b => some (compare a b)
  | _, _ => none

/-- One step of the comparator fold in `order_by.rs`: keep a non-`Equal`
accumulated ordering, otherwise consult the next key (flipping descending
keys).  A failed column lookup (`.unwrap()`) or an unsupported value pair is
a panic, modelled as `none`, which persists through the rest of the fold. -/
def orderStep (itof : Int → Nat) (schema : Schema) (row_a row_b : Row)
    (acc : Option Ordering) (order_by_expr : OrderByExpr) : Option Ordering :=
  match acc with
  | none => none
  | some ordering =>
    if ordering = .eq then do
      let a ← row_a.get_column order_by_expr.column schema
      let b ← row_b.get_column order_by_expr.column schema
      let c ← compare_values itof a b
      some (match order_by_expr.order with
            | .asc => c
            | .desc => flip c)
    else some ordering

/-- The comparator closure of `order_by.rs`: fold over the keys, keeping the
first non-`Equal` comparison; the source skips the lookups entirely once a
key has decided the order, and so does the fold. -/
def rowCompare (itof : Int → Nat) (schema : Schema) (order_by_exprs : List OrderByExpr)
    (row_a row_b : Row) : Option Ordering :=
  order_by_exprs.foldl (orderStep itof schema row_a row_b) (some .eq)

/-- Written from the spec's words (§4.6, OrderBy contract), for comparison
with the comparator embedded from the source: "for each key `(col, dir)` in
order, resolve `col` in schema; compare values with §3 ordering; if equal,
continue; otherwise return the comparison, flipped if `dir=Desc`" — later
keys are consulted only when all earlier keys compare equal. -/
def specKeyCompare (itof : Int → Nat) (schema : Schema) :
    List OrderByExpr → Row → Row → Option Ordering
  | [], _, _ => some .eq
  | k :: ks, row_a, row_b => do
      let a ← row_a.get_column k.column schema
      let b ← row_b.get_column k.column schema
      let c ← compare_values itof a b
      let ordered := match k.order with
                     | .asc => c
                     | .desc => flip c
      if ordered = .eq then specKeyCompare itof schema ks row_a row_b
      else some ordered

/-- The "row_a sorts no later than row_b" relation induced by the comparator
(`Ordering::Greater` means swap). -/
def rowLE (itof : Int → Nat) (schema : Schema) (order_by_exprs : List OrderByExpr)
    (row_a row_b : Row) : Prop :=
  (rowCompare itof schema order_by_exprs row_a row_b).getD .eq ≠ .gt

instance (itof : Int → Nat) (schema : Schema) (keys : List OrderByExpr) :
    DecidableRel (rowLE itof schema keys) := fun _ _ => by
  unfold rowLE; infer_instance

/-- `order_by.rs`: `order_by`.  Rust's `slice::sort_by` is a stable sort by
the comparator; it is modelled by `List.insertionSort` (also a stable sort,
with the same behavioural contract).  A comparator invocation that panics in
Rust aborts the sort: the model returns `none` as soon as any pair of input
rows is not comparable.  (The `&mut Cost` parameter of the source counts
comparator invocations, a number the sort contract leaves unspecified; no
claim refers to it and it is not modelled.) -/
def order_by (itof : Int → Nat) (rows : List Row) (schema : Schema)
    (order_by_exprs : List OrderByExpr) : Option (List Row) :=
  if rows.all fun a => rows.all fun b =>
      (rowCompare itof schema order_by_exprs a b).isSome then
    some (List.insertionSort (rowLE itof schema order_by_exprs) rows)
  else
    none

/-- `indexes.rs`: an index declaration. -/
structure Index where
  table_name : TableName
  columns : List ColumnName
deriving DecidableEq, Repr

/-- The `BTreeMap`/`HashMap` maps from key hashes to buckets are modelled as
partial functions: the engine only ever calls `get`, `insert` and
`get_mut`+push on them and never iterates them, so a Rust map with those
operations is extensionally a partial function. -/
def HashBuckets (α : Type) := Nat → Option (List α)

/-- `insert`, replacing any value at the key (the build phase of
`hash_join`). -/
def mapInsert {α : Type} (m : HashBuckets α) (k : Nat) (v : List α) : HashBuckets α :=
  fun x => if x = k then some v else m x

/-- `get_mut` + push with no insert on a missing key (the probe phase of
`hash_join`: `if let Some(items) = stuff.get_mut(..)`). -/
def mapPush {α : Type} (m : HashBuckets α) (k : Nat) (a : α) : HashBuckets α :=
  fun x => if x = k then (m x).map (fun l => l ++ [a]) else m x

/-- `get_mut` + push, inserting a singleton bucket on a missing key (the
pattern of `construct_index`). -/
def mapAdd {α : Type} (m : HashBuckets α) (k : Nat) (a : α) : HashBuckets α :=
  fun x => if x = k then some (((m x).getD []) ++ [a]) else m x

/-- The empty bucket map. -/
def mapEmpty {α : Type} : HashBuckets α := fun _ => none

/-- `indexes.rs`: a constructed index, the `BTreeMap<HashedValue, Vec<LineNumber>>`
from key hashes to row positions. -/
structure ConstructedIndex where
  items : HashBuckets Nat

/-- `serde_json::Value::get` on an object (used by `construct_index`). -/
def Value.getKey (row : Value) (column : String) : Option Value :=
  match row with
  | .obj fields => (fields.find? fun p => p.1 == column).map (·.2)
  | _ => none

/-- The composite key tuple `construct_index` extracts from one raw row:
per index column the row's value, or null when missing. -/
def indexKey (index : Index) (row : Value) : List Value :=
  index.columns.map fun column => (row.getKey column).getD .null

/-- `indexes.rs`: `construct_index` — bucket the row positions by the hash of
their composite key tuple, in scan order. -/
def construct_index (h : Value → Nat) (index : Index) (rows : List Value) :
    ConstructedIndex :=
  { items :=
      rows.enum.foldl
        (fun items p => mapAdd items (h (.arr (indexKey index p.2))) p.1)
        mapEmpty }

/-- `types.rs`: the join condition. -/
structure JoinOn where
  left : Column
  right : Column
deriving DecidableEq, Repr

/-- `types.rs`: join type. -/
inductive JoinType where
  | inner
  | leftOuter
deriving DecidableEq, Repr

/-- `join.rs`: `hash_join`.  Build: seed an empty bucket per left-key hash.
Probe: append each right row whose key hash has a bucket.  Emit: per left row
in order, concatenate with every bucket row, or null-pad (LeftOuter) when the
bucket is empty.  Each phase increments the cost once per row visited. -/
def hash_join (h : Value → Nat) (left_rows : List Row) (left_schema : Schema)
    (right_rows : List Row) (right_schema : Schema) (on_ : JoinOn)
    (join_type : JoinType) (cost : Cost) : Outcome QueryStep := do
  let (stuff, cost) ← left_rows.foldlM
    (fun acc left_row => do
      let cost := acc.2.increment_rows_processed
      match left_row.get_column on_.left left_schema with
      | none => throw (.qerr (.columnNotFoundInSchema on_.left))
      | some value => pure (mapInsert acc.1 (h value) ([] : List Row), cost))
    ((mapEmpty : HashBuckets Row), cost)
  let (stuff, cost) ← right_rows.foldlM
    (fun acc right_row => do
      let cost := acc.2.increment_rows_processed
      match right_row.get_column on_.right right_schema with
      | none => throw (.qerr (.columnNotFoundInSchema on_.right))
      | some value => pure (mapPush acc.1 (h value) right_row, cost))
    (stuff, cost)
  let (output_rows, cost) ← left_rows.foldlM
    (fun acc left_row => do
      let cost := acc.2.increment_rows_processed
      match left_row.get_column on_.left left_schema with
      | none => throw (.qerr (.columnNotFoundInSchema on_.left))
      | some value =>
        match stuff (h value) with
        | some rhs =>
          if rhs.isEmpty then
            match join_type with
            | .leftOuter =>
                pure (acc.1 ++
                  [{ items := left_row.items ++
                       right_schema.columns.map fun _ => Value.null }], cost)
            | .inner => pure (acc.1, cost)
          else
            pure (acc.1 ++ rhs.map fun item => left_row.extendRow item, cost)
        | none => pure (acc.1, cost))
    (([] : List Row), cost)
  pure { schema := left_schema.extendSchema right_schema, rows := output_rows, cost }

/-- `catalog.rs`: a table descriptor. -/
structure Table where
  columns : List ColumnName
  indexes : List Index
deriving Repr

/-- `catalog.rs`: the catalog, `BTreeMap<TableName, Table>` as an association
list. -/
def Catalog := List (TableName × Table)

/-- `Catalog::tables.get` (first match; keys are unique). -/
def catalogGet : Catalog → TableName → Option Table
  | [], _ => none
  | p :: m, t => if p.1 = t then some p.2 else catalogGet m t

/-- Removal of a key from a JSON object's map (`BTreeMap::remove`), returning
the removed value and the remaining fields. -/
def mapRemove (fields : List (String × Value)) (k : String) :
    Option (Value × List (String × Value)) :=
  match fields with
  | [] => none
  | (key, v) :: rest =>
      if key == k then some (v, rest)
      else (mapRemove rest k).map fun p => (p.1, (key, v) :: p.2)

/-- `from.rs`: `into_row` — materialise a raw JSON object into a `Row` by
extracting the declared columns in order; a non-object or a missing column is
a panic. -/
def into_row (value : Value) (columns : List Column) : Outcome Row :=
  match value with
  | .obj map => do
      let acc ← columns.foldlM
        (fun acc column =>
          match mapRemove acc.2 column.name with
          | some p => pure (acc.1 ++ [p.1], p.2)
          | none => throw (.panicked "could not find column"))
        (([] : List Value), map)
      pure { items := acc.1 }
  | _ => throw (.panicked "what is this")

/-- The declared column list of a table (`schema` in `from.rs`; the
`.unwrap()` on an unknown table is a panic). -/
def tableColumns (catalog : Catalog) (table_name : TableName) :
    Outcome (List ColumnName) :=
  match catalogGet catalog table_name with
  | some t => pure t.columns
  | none => throw (.panicked "unknown table")

/-- `from.rs`: `table_scan` — fetch the raw rows from the row source,
materialise them in order, incrementing the cost per row.  The row source is
an explicit parameter (`raw_rows_for_table` in the source hard-codes the
static tables; its data for the two small tables is reproduced further
below). -/
def table_scan (rowSource : TableName → List Value) (catalog : Catalog)
    (table_name : TableName) (table_alias : Option TableAlias) : Outcome QueryStep := do
  let names ← tableColumns catalog table_name
  let columns := names.map fun name => Column.mk name table_alias
  let raw := rowSource table_name
  let acc ← raw.foldlM
    (fun acc r => do
      let cost := acc.2.increment_rows_processed
      let row ← into_row r columns
      pure (acc.1 ++ [row], cost))
    (([] : List Row), Cost.new)
  pure { schema := { columns := columns.map .column }, rows := acc.1, cost := acc.2 }

/-- Modelled from the spec: the body of `index_scan` in
`src/crates/core/src/query/from.rs` is an unfinished fragment — it stops at
`raw_rows_for_table(table_name).into_iter().;` (a syntax error) with the
placeholder comment "get only relevant rows from `raw`" — so the operator is
modelled from spec §4.6: for each probe key, compute its hash with the same
function used at index-build time, look up the bucket of the index built by
`construct_index`, and emit the rows at the bucket's positions in bucket
order, converted as in `table_scan`, skipping any row whose stored key is not
value-equal to the probe key; cost +1 per emitted row. -/
def index_scan (h : Value → Nat) (rowSource : TableName → List Value)
    (catalog : Catalog) (table_name : TableName) (table_alias : Option TableAlias)
    (index : Index) (values : List Value) : Outcome QueryStep := do
  let names ← tableColumns catalog table_name
  let columns := names.map fun name => Column.mk name table_alias
  let raw := rowSource table_name
  let cidx := construct_index h index raw
  let acc ← values.foldlM
    (fun acc probe => do
      let bucket := (cidx.items (h probe)).getD []
      bucket.foldlM
        (fun acc i => do
          match raw.get? i with
          | none => throw (.panicked "index position out of range")
          | some r =>
            if (Value.arr (indexKey index r)).rustEq probe then do
              let cost := acc.2.increment_rows_processed
              let row ← into_row r columns
              pure (acc.1 ++ [row], cost)
            else
              pure acc)
        acc)
    (([] : List Row), Cost.new)
  pure { schema := { columns := columns.map .column }, rows := acc.1, cost := acc.2 }

/-- `types.rs`: the physical plan of the executor drafts (`query.rs`), with
`Expr` filters and fields. -/
inductive PhysicalPlan where
  | tableScan (table_name : TableName) (table_alias : Option TableAlias)
  | indexScan (table_name : TableName) (table_alias : Option TableAlias)
      (index : Index) (values : List Value)
  | filter (from_ : PhysicalPlan) (filter : Expr)
  | project (from_ : PhysicalPlan) (fields : List Expr)
  | limit (limit : Nat) (from_ : PhysicalPlan)
  | join (left_from : PhysicalPlan) (right_from : PhysicalPlan)
      (join_type : JoinType) (on_ : JoinOn)

/-- `query.rs`: `run_physical_plan`.  The snapshot's `query.rs` draft calls a
three-argument per-row `project_fields`, while the cited `project.rs` draft
defines the four-argument whole-input `project_fields` embedded above; the
`Project` arm below follows the cited `project.rs` signature (child cost
flows into `project_fields`, which performs the per-row increments). -/
def run_physical_plan (h : Value → Nat) (rowSource : TableName → List Value)
    (catalog : Catalog) : PhysicalPlan → Outcome QueryStep
  | .tableScan table_name table_alias => table_scan rowSource catalog table_name table_alias
  | .indexScan table_name table_alias index values =>
      index_scan h rowSource catalog table_name table_alias index values
  | .filter from_ filterExpr => do
      let step ← run_physical_plan h rowSource catalog from_
      let acc ← step.rows.foldlM
        (fun acc row => do
          let cost := acc.2.increment_rows_processed
          if ← apply_predicate row step.schema filterExpr then
            pure (acc.1 ++ [row], cost)
          else
            pure (acc.1, cost))
        (([] : List Row), step.cost)
      pure { schema := step.schema, rows := acc.1, cost := acc.2 }
  | .project from_ fields => do
      let step ← run_physical_plan h rowSource catalog from_
      let out ← project_fields step.rows step.schema fields step.cost
      let schema ← project_schema step.schema fields
      pure { schema, rows := out.1, cost := out.2 }
  | .limit limit from_ => do
      let step ← run_physical_plan h rowSource catalog from_
      pure { step with rows := step.rows.take limit }
  | .join left_from right_from join_type on_ => do
      let left ← run_physical_plan h rowSource catalog left_from
      let right ← run_physical_plan h rowSource catalog right_from
      let cost := left.cost.extendCost right.cost
      hash_join h left.rows left.schema right.rows right.schema on_ join_type cost

/-- The expression type of the `to_physical_plan.rs` draft: that draft's
`Expr` consists of a single `ColumnComparison` variant (see both arms of
`columns_in_filter` and the draft's own test), carrying the column on the
left and the literal on the right. -/
inductive CExpr where
  | columnComparison (column : Column) (op : Op) (literal : Value)
deriving DecidableEq, Repr

/-- The logical plan consumed by `to_physical_plan.rs` (its `match` covers
exactly these five shapes; the draft has no OrderBy arm). -/
inductive LogicalPlan where
  | fromTable (table_name : TableName) (table_alias : Option TableAlias)
  | filter (from_ : LogicalPlan) (filter : CExpr)
  | join (left_from : LogicalPlan) (right_from : LogicalPlan)
      (join_type : JoinType) (on_ : JoinOn)
  | limit (limit : Nat) (from_ : LogicalPlan)
  | project (from_ : LogicalPlan) (fields : List CExpr)
deriving DecidableEq, Repr

/-- The physical plan produced by `to_physical_plan.rs`. -/
inductive PhysicalPlanC where
  | tableScan (table_name : TableName) (table_alias : Option TableAlias)
  | indexScan (table_name : TableName) (table_alias : Option TableAlias)
      (index : Index) (values : List Value)
  | filter (from_ : PhysicalPlanC) (filter : CExpr)
  | join (left_from : PhysicalPlanC) (right_from : PhysicalPlanC)
      (join_type : JoinType) (on_ : JoinOn)
  | limit (limit : Nat) (from_ : PhysicalPlanC)
  | project (from_ : PhysicalPlanC) (fields : List CExpr)
deriving DecidableEq, Repr

/-- The constructed indexes of the planner,
`BTreeMap<TableName, Vec<(Index, ConstructedIndex)>>`; only `get` is used, so
the map is a function. -/
def ConstructedIndexes := TableName → Option (List (Index × ConstructedIndex))

/-- `to_physical_plan.rs`: `columns_in_filter` — the top-level equality
bindings of a predicate: a single `column = literal` comparison yields one
binding, any other comparison none. -/
def columns_in_filter (expr : CExpr) : List (ColumnName × Value) :=
  match expr with
  | .columnComparison column .equals literal => [(column.name, literal)]
  | .columnComparison _ _ _ => []

/-- `BTreeMap::get` on the binding map of `columns_in_filter` (first match;
keys are unique). -/
def fcGet : List (ColumnName × Value) → ColumnName → Option Value
  | [], _ => none
  | p :: m, c => if p.1 = c then some p.2 else fcGet m c

/-- `to_physical_plan.rs`: `find_index` — the first index of the table whose
declared columns are all bound, paired with the probe key (one array of the
bound values in index-column order). -/
def find_index (indexes : ConstructedIndexes) (table_name : TableName)
    (filter_columns : List (ColumnName × Value)) : Option (Index × List Value) :=
  match indexes table_name with
  | none => none
  | some indexes_for_table =>
      indexes_for_table.findSome? fun p =>
        (p.1.columns.mapM fun column => fcGet filter_columns column).map
          fun vals => (p.1, [Value.arr vals])

mutual
/-- `to_physical_plan.rs`: `to_physical_plan`. -/
def to_physical_plan (indexes : ConstructedIndexes) : LogicalPlan → PhysicalPlanC
  | .fromTable table_name table_alias => .tableScan table_name table_alias
  | .filter from_ filterExpr => filter_to_physical_plan indexes from_ filterExpr
  | .join left_from right_from join_type on_ =>
      .join (to_physical_plan indexes left_from) (to_physical_plan indexes right_from)
        join_type on_
  | .limit n from_ => .limit n (to_physical_plan indexes from_)
  | .project from_ fields => .project (to_physical_plan indexes from_) fields

/-- `to_physical_plan.rs`: `filter_to_physical_plan` — when the filter
directly wraps a `From` and a covering index is found, return an `IndexScan`
(dropping the filter); otherwise keep the `Filter` with a rewritten child. -/
def filter_to_physical_plan (indexes : ConstructedIndexes) (from_ : LogicalPlan)
    (filterExpr : CExpr) : PhysicalPlanC :=
  match from_ with
  | .fromTable table_name table_alias =>
      match find_index indexes table_name (columns_in_filter filterExpr) with
      | some p => .indexScan table_name table_alias p.1 p.2
      | none => .filter (to_physical_plan indexes (.fromTable table_name table_alias)) filterExpr
  | other => .filter (to_physical_plan indexes other) filterExpr
end

/-- `catalog.rs`: `construct_indexes` — one constructed index per declared
index of each table, built from that table's rows. -/
def construct_indexes (h : Value → Nat) (rowSource : TableName → List Value)
    (catalog : Catalog) : ConstructedIndexes :=
  fun t =>
    (catalogGet catalog t).map fun table =>
      table.indexes.map fun index =>
        (index, construct_index h index (rowSource index.table_name))

/-- The static `animal` rows hard-coded in `from.rs` (field order is the
`BTreeMap` key order of `serde_json`). -/
def animalRows : List Value :=
  [ .obj [("animal_id", .intNum 1), ("animal_name", .str "horse"), ("species_id", .intNum 1)],
    .obj [("animal_id", .intNum 2), ("animal_name", .str "dog"), ("species_id", .intNum 1)],
    .obj [("animal_id", .intNum 3), ("animal_name", .str "snake"), ("species_id", .intNum 2)] ]

/-- The static `species` rows hard-coded in `from.rs`. -/
def speciesRows : List Value :=
  [ .obj [("species_id", .intNum 1), ("species_name", .str "mammal")],
    .obj [("species_id", .intNum 2), ("species_name", .str "reptile")],
    .obj [("species_id", .intNum 3), ("species_name", .str "bird")] ]

/-- The small-table part of `raw_rows_for_table` in `from.rs` (the Chinook
tables live in bundled data files and are not reproduced). -/
def staticRowSource : TableName → List Value :=
  fun t => if t == "animal" then animalRows else if t == "species" then speciesRows else []

/-- The `animal` and `species` entries of `get_static_catalog` in
`catalog.rs`. -/
def staticCatalog : Catalog :=
  [ ("animal",
      { columns := ["animal_id", "animal_name", "species_id"],
        indexes :=
          [ { table_name := "animal", columns := ["animal_id"] },
            { table_name := "animal", columns := ["species_id"] } ] }),
    ("species",
      { columns := ["species_id", "species_name"],
        indexes := [ { table_name := "species", columns := ["species_id"] } ] }) ]

/-- Whether an operator coerces both operands to `i64` (every operator except
`=`). -/
def usesIntOperands : Op → Bool
  | .equals => false
  | _ => true

/-- The rows the emit phase produces for one left row, reading an arbitrary
bucket map. -/
def emitRowSt (hf : Value → Nat) (kL : Row → Value) (st : HashBuckets Row)
    (rs : Schema) (join_type : JoinType) (l : Row) : List Row :=
  match st (hf (kL l)) with
  | some rhs =>
    if rhs.isEmpty then
      match join_type with
      | .leftOuter => [⟨l.items ++ rs.columns.map fun _ => Value.null⟩]
      | .inner => []
    else rhs.map fun r => l.extendRow r
  | none => []

/-- The rows the emit phase produces for one left row of the join, with the
bucket map resolved. -/
def emitRow (hf : Value → Nat) (kL kR : Row → Value) (R : List Row) (rs : Schema)
    (join_type : JoinType) (l : Row) : List Row :=
  let rhs := R.filter fun r => hf (kR r) = hf (kL l)
  if rhs.isEmpty then
    match join_type with
    | .leftOuter => [⟨l.items ++ rs.columns.map fun _ => Value.null⟩]
    | .inner => []
  else rhs.map fun r => l.extendRow r

/-- The value-level emission of one left row of a LeftOuter join: a null-padded
row when no right row's key equals the left key, else one concatenated row
per matching right row. -/
def leftOuterEmit (kL kR : Row → Value) (R : List Row) (rs : Schema) (l : Row) :
    List Row :=
  let rhs := R.filter fun r => kR r = kL l
  if rhs.isEmpty then [⟨l.items ++ List.replicate rs.columns.length Value.null⟩]
  else rhs.map fun r => l.extendRow r

/-!  General helper lemmas about the monadic folds used by the embedding. -/

theorem mapM_congr_ok {α β : Type} (l : List α) (f : α → Outcome β) (g : α → β) :
    (∀ a ∈ l, f a = .ok (g a)) → l.mapM f = .ok (l.map g) := by
  induction l with
  | nil => intro _; rfl
  | cons a l ih =>
      intro hl
      rw [List.mapM_cons, hl a (by simp), ih fun b hb => hl b (by simp [hb])]
      rfl

theorem aggGet_of_nodup_mem {m : List (Nat × Value)} {k : Nat} {v : Value}
    (hnd : (m.map Prod.fst).Nodup) (hmem : (k, v) ∈ m) : aggGet m k = some v := by
  induction m with
  | nil => cases hmem
  | cons p m ih =>
      simp only [List.map_cons, List.nodup_cons] at hnd
      rcases List.mem_cons.mp hmem with h | h
      · subst h
        simp [aggGet]
      · have hk : p.1 ≠ k := by
          intro hkk
          exact hnd.1 (hkk ▸ (List.mem_map.mpr ⟨(k, v), h, rfl⟩))
        simpa [aggGet, hk] using ih hnd.2 h

theorem aggGet_eq_none {m : List (Nat × Value)} {k : Nat}
    (hk : k ∉ m.map Prod.fst) : aggGet m k = none := by
  induction m with
  | nil => rfl
  | cons p m ih =>
      simp only [List.map_cons, List.mem_cons, not_or] at hk
      have h1 : p.1 ≠ k := fun hkk => hk.1 hkk.symm
      simpa [aggGet, h1] using ih hk.2

/-- The `wrapI64` wrap-around is the identity on results inside the `i64`
range. -/
theorem wrapI64_eq_self {i : Int} (h1 : -(2 ^ 63) ≤ i) (h2 : i < 2 ^ 63) :
    wrapI64 i = i := by
  unfold wrapI64
  omega

/-!  Claim C7. -/

/-- Claim C7 (code_bug evidence): evaluating any function call — in
particular an aggregate call — in row-local context hits the source's
`todo!("function call in evaluate_expr")` panic; the engine never produces
the `CannotUseAggregateFunctionInFilter` error the specification names (no
such variant exists in the embedded `QueryError`). -/
theorem C7_aggregate_call_in_row_local_context_panics
    (row : Row) (schema : Schema) (function_name : FunctionName) (args : ExprArgs) :
    evaluate_expr row schema (.functionCall function_name args) =
      .error (.panicked "function call in evaluate_expr") := rfl

/-!  Claim C8. -/

/-- Claim C8: `=` never errors and returns structural value equality as a
boolean; every other operator returns `ExpectedInt` whenever either operand
is not an `i64` (left operand checked first), and otherwise returns the
integer comparison result, or the integer arithmetic result when it is
representable. -/
theorem C8_match_op_semantics :
    (∀ v w : Value, match_op v .equals w = .ok (.bool (v.rustEq w)))
    ∧ (∀ (op : Op) (v w : Value), usesIntOperands op = true → v.as_i64 = none →
        match_op v op w = .error (.expectedInt v))
    ∧ (∀ (op : Op) (v w : Value) (li : Int), usesIntOperands op = true →
        v.as_i64 = some li → w.as_i64 = none →
        match_op v op w = .error (.expectedInt w))
    ∧ (∀ (v w : Value) (li ri : Int), v.as_i64 = some li → w.as_i64 = some ri →
        match_op v .greaterThan w = .ok (.bool (decide (li > ri)))
        ∧ match_op v .greaterThanOrEqual w = .ok (.bool (decide (li ≥ ri)))
        ∧ match_op v .lessThan w = .ok (.bool (decide (li < ri)))
        ∧ match_op v .lessThanOrEqual w = .ok (.bool (decide (li ≤ ri))))
    ∧ (∀ (v w : Value) (li ri : Int), v.as_i64 = some li → w.as_i64 = some ri →
        (-(2 ^ 63) ≤ li + ri → li + ri < 2 ^ 63 →
          match_op v .add w = .ok (.intNum (li + ri)))
        ∧ (-(2 ^ 63) ≤ li - ri → li - ri < 2 ^ 63 →
          match_op v .subtract w = .ok (.intNum (li - ri)))) := by
  refine ⟨fun v w => rfl, ?_, ?_, ?_, ?_⟩
  · intro op v w hop hv
    cases op <;> simp_all [match_op, as_int, usesIntOperands, Bind.bind, Except.bind]
  · intro op v w li hop hv hw
    cases op <;> simp_all [match_op, as_int, usesIntOperands, Bind.bind, Except.bind]
  · intro v w li ri hv hw
    refine ⟨?_, ?_, ?_, ?_⟩ <;> simp_all [match_op, as_int, Bind.bind, Except.bind]
  · intro v w li ri hv hw
    constructor
    · intro h1 h2
      simp_all [match_op, as_int, Bind.bind, Except.bind, wrapI64_eq_self h1 h2]
    · intro h1 h2
      simp_all [match_op, as_int, Bind.bind, Except.bind, wrapI64_eq_self h1 h2]

/-- Witness for C8 at concrete operands, including the spec's own example
that `>` on a string and an integer raises `ExpectedInt`. -/
theorem C8_match_op_semantics_witness :
    match_op (.str "a") .greaterThan (.intNum 1) = .error (.expectedInt (.str "a"))
    ∧ match_op (.intNum 2) .greaterThan (.intNum 1) = .ok (.bool true)
    ∧ match_op (.intNum 2) .add (.intNum 3) = .ok (.intNum 5)
    ∧ match_op (.intNum 2) .equals (.str "a") = .ok (.bool false) := by
  have h := C8_match_op_semantics
  refine ⟨h.2.1 .greaterThan (.str "a") (.intNum 1) rfl rfl, ?_, ?_, ?_⟩
  · have := (h.2.2.2.1 (.intNum 2) (.intNum 1) 2 1 (by decide) (by decide)).1
    simpa using this
  · have := ((h.2.2.2.2 (.intNum 2) (.intNum 3) 2 3 (by decide) (by decide)).1
      (by decide) (by decide))
    simpa using this
  · simpa using h.1 (.intNum 2) (.str "a")

/-!  Claims C10 and C6: the projection operator. -/

theorem okBind {α β : Type} (a : α) (f : α → Outcome β) :
    (Except.ok a : Outcome α) >>= f = f a := rfl

theorem errBind {α β : Type} (e : Failure) (f : α → Outcome β) :
    (Except.error e : Outcome α) >>= f = .error e := rfl

theorem enum_fst_inj {α : Type} {l : List α} {p q : Nat × α}
    (hp : p ∈ l.enum) (hq : q ∈ l.enum) (h : p.1 = q.1) : p = q := by
  rw [List.mem_enum_iff_get?] at hp hq
  cases p with
  | mk i a =>
    cases q with
    | mk j b =>
      simp only at h
      subst h
      simp only at hp hq
      rw [hp] at hq
      cases hq
      rfl

/-- Characterisation of the aggregate pass of `project_fields` when every
aggregate field evaluates successfully. -/
theorem agg_pass_ok (rows : List Row) (schema : Schema) (g : Nat → Value) :
    ∀ (fs : List (Nat × Expr)) (acc : List (Nat × Value)),
      (∀ p ∈ fs, is_aggregate_expr p.2 = true →
        evaluate_aggregate_expr rows schema p.2 = .ok (g p.1)) →
      (fs.foldlM
        (fun acc p =>
          if is_aggregate_expr p.2 then do
            let v ← evaluate_aggregate_expr rows schema p.2
            pure (acc ++ [(p.1, v)])
          else pure acc)
        acc : Outcome (List (Nat × Value))) =
      .ok (acc ++ (fs.filter fun p => is_aggregate_expr p.2).map fun p => (p.1, g p.1)) := by
  intro fs
  induction fs with
  | nil => intro acc _; simp; rfl
  | cons p fs ih =>
      intro acc hev
      rw [List.foldlM_cons]
      cases hagg : is_aggregate_expr p.2 with
      | true =>
          rw [if_pos rfl, hev p (by simp) hagg, okBind]
          have := ih (acc ++ [(p.1, g p.1)]) fun q hq hq2 => hev q (by simp [hq]) hq2
          rw [show (pure (acc ++ [(p.1, g p.1)]) : Outcome _) >>=
              (fun acc => List.foldlM _ acc fs) = List.foldlM _ (acc ++ [(p.1, g p.1)]) fs
            from rfl, this, List.filter_cons_of_pos (by simp [hagg])]
          simp
      | false =>
          rw [if_neg (by simp [hagg])]
          have := ih acc fun q hq hq2 => hev q (by simp [hq]) hq2
          rw [show (pure acc : Outcome _) >>= (fun acc => List.foldlM _ acc fs) =
              List.foldlM _ acc fs from rfl, this,
            List.filter_cons_of_neg (by simp [hagg])]

/-- When every field is aggregate and every aggregate evaluation succeeds,
`project_fields` produces exactly one row holding the aggregate results in
field order, and performs no cost increments. -/
theorem project_fields_all_aggregate (rows : List Row) (schema : Schema)
    (fields : List Expr) (cost : Cost) (g : Nat → Value)
    (hall : ∀ f ∈ fields, is_aggregate_expr f = true)
    (hev : ∀ p ∈ fields.enum, evaluate_aggregate_expr rows schema p.2 = .ok (g p.1)) :
    project_fields rows schema fields cost =
      .ok ([⟨fields.enum.map fun p => g p.1⟩], cost) := by
  unfold project_fields
  rw [agg_pass_ok rows schema g fields.enum []
      (fun p hp _ => hev p hp)]
  have hmem : ∀ p ∈ fields.enum, p.2 ∈ fields := by
    intro p hp
    exact List.get?_mem (List.mem_enum_iff_get?.mp hp)
  have hfilt : (fields.enum.filter fun p => is_aggregate_expr p.2) = fields.enum :=
    List.filter_eq_self.mpr fun p hp => by simp [hall p.2 (hmem p hp)]
  rw [hfilt, okBind]
  simp only [List.nil_append]
  have hlen : ((fields.enum.map fun p => (p.1, g p.1)).length = fields.length) := by
    simp [List.enum_length]
  rw [if_pos hlen]
  have hget : ∀ p ∈ fields.enum,
      aggGet (fields.enum.map fun q => (q.1, g q.1)) p.1 = some (g p.1) := by
    intro p hp
    apply aggGet_of_nodup_mem
    · rw [List.map_map]
      exact List.nodup_enum_map_fst fields
    · exact List.mem_map.mpr ⟨p, hp, rfl⟩
  rw [mapM_congr_ok fields.enum _ (fun p => g p.1) fun p hp => by rw [hget p hp]; rfl]
  rfl

theorem length_filter_lt_of_exists_not {α : Type} {l : List α} {p : α → Bool}
    (h : ∃ a ∈ l, p a = false) : (l.filter p).length < l.length := by
  induction l with
  | nil => obtain ⟨a, ha, _⟩ := h; cases ha
  | cons b l ih =>
      obtain ⟨a, ha, hpa⟩ := h
      rcases List.mem_cons.mp ha with rfl | ha
      · rw [List.filter_cons_of_neg (by simp [hpa])]
        exact Nat.lt_succ_of_le (List.length_filter_le p l)
      · cases hpb : p b with
        | true =>
            rw [List.filter_cons_of_pos (by simp [hpb])]
            simpa using ih ⟨a, ha, hpa⟩
        | false =>
            rw [List.filter_cons_of_neg (by simp [hpb])]
            exact Nat.lt_succ_of_lt (ih ⟨a, ha, hpa⟩)

/-- Characterisation of `project_field_row` against the aggregate-result map
produced by the aggregate pass. -/
theorem project_field_row_spec (schema : Schema) (fields : List Expr)
    (g : Nat → Value) (e : Row → Nat → Value) (r : Row)
    (hrow : ∀ p ∈ fields.enum, is_aggregate_expr p.2 = false →
      evaluate_expr r schema p.2 = .ok (e r p.1)) :
    project_field_row r schema fields
        ((fields.enum.filter fun p => is_aggregate_expr p.2).map fun p => (p.1, g p.1)) =
      .ok ⟨fields.enum.map fun p =>
        if is_aggregate_expr p.2 then g p.1 else e r p.1⟩ := by
  unfold project_field_row
  have hnd : (((fields.enum.filter fun p => is_aggregate_expr p.2).map
      fun p => (p.1, g p.1)).map Prod.fst).Nodup := by
    rw [List.map_map]
    have : ((fields.enum.filter fun p => is_aggregate_expr p.2).map
        ((Prod.fst : Nat × Value → Nat) ∘ fun p => (p.1, g p.1))) =
        (fields.enum.filter fun p => is_aggregate_expr p.2).map Prod.fst := rfl
    rw [this]
    exact ((List.nodup_enum_map_fst fields).sublist
      ((List.filter_sublist _).map Prod.fst))
  rw [mapM_congr_ok fields.enum _
      (fun p => if is_aggregate_expr p.2 then g p.1 else e r p.1) ?hpt]
  · rfl
  case hpt =>
    intro p hp
    cases hagg : is_aggregate_expr p.2 with
    | true =>
        have hmem : (p.1, g p.1) ∈
            (fields.enum.filter fun p => is_aggregate_expr p.2).map
              fun p => (p.1, g p.1) :=
          List.mem_map.mpr ⟨p, List.mem_filter.mpr ⟨hp, by simp [hagg]⟩, rfl⟩
        rw [aggGet_of_nodup_mem hnd hmem]
        simp only [hagg, if_true]
        rfl
    | false =>
        have hnotin : p.1 ∉ ((fields.enum.filter fun p => is_aggregate_expr p.2).map
            fun p => (p.1, g p.1)).map Prod.fst := by
          rw [List.map_map]
          intro hin
          obtain ⟨q, hq, hq1⟩ := List.mem_map.mp hin
          have hqe := List.mem_filter.mp hq
          have : q = p := enum_fst_inj hqe.1 hp hq1
          subst this
          simp [hagg] at hqe
        rw [aggGet_eq_none hnotin, hrow p hp hagg]
        simp [hagg]

/-- Characterisation of the per-row pass of `project_fields`. -/
theorem row_pass_ok (schema : Schema) (fields : List Expr)
    (m : List (Nat × Value)) (rowOut : Row → Row) :
    ∀ (rows : List Row) (acc : List Row) (c : Cost),
      (∀ r ∈ rows, project_field_row r schema fields m = .ok (rowOut r)) →
      (rows.foldlM
        (fun acc row => do
          let cost := acc.2.increment_rows_processed
          let r ← project_field_row row schema fields m
          pure (acc.1 ++ [r], cost))
        (acc, c) : Outcome (List Row × Cost)) =
      .ok (acc ++ rows.map rowOut, ⟨c.rows_processed + rows.length⟩) := by
  intro rows
  induction rows with
  | nil => intro acc c _; simp; rfl
  | cons r rows ih =>
      intro acc c hev
      rw [List.foldlM_cons, hev r (by simp), okBind]
      have := ih (acc ++ [rowOut r]) c.increment_rows_processed
        fun q hq => hev q (by simp [hq])
      rw [show (pure (acc ++ [rowOut r], c.increment_rows_processed) : Outcome _) >>=
          (fun acc => List.foldlM _ acc rows) =
          List.foldlM _ (acc ++ [rowOut r], c.increment_rows_processed) rows from rfl, this]
      simp [Cost.increment_rows_processed]
      omega

/-- When some field is not aggregate and every needed evaluation succeeds,
`project_fields` produces one output row per child row (aggregate fields from
the precomputed map, the rest row-locally), incrementing the cost once per
child row. -/
theorem project_fields_mixed (rows : List Row) (schema : Schema)
    (fields : List Expr) (cost : Cost) (g : Nat → Value) (e : Row → Nat → Value)
    (hmix : ∃ f ∈ fields, is_aggregate_expr f = false)
    (hev : ∀ p ∈ fields.enum, is_aggregate_expr p.2 = true →
      evaluate_aggregate_expr rows schema p.2 = .ok (g p.1))
    (hrow : ∀ r ∈ rows, ∀ p ∈ fields.enum, is_aggregate_expr p.2 = false →
      evaluate_expr r schema p.2 = .ok (e r p.1)) :
    project_fields rows schema fields cost =
      .ok (rows.map fun r =>
            ⟨fields.enum.map fun p =>
              if is_aggregate_expr p.2 then g p.1 else e r p.1⟩,
           ⟨cost.rows_processed + rows.length⟩) := by
  unfold project_fields
  rw [agg_pass_ok rows schema g fields.enum [] hev]
  rw [okBind]
  simp only [List.nil_append]
  have hlt : ((fields.enum.filter fun p => is_aggregate_expr p.2).map
      fun p => (p.1, g p.1)).length ≠ fields.length := by
    rw [List.length_map]
    obtain ⟨f, hf, hfa⟩ := hmix
    obtain ⟨i, hi⟩ := List.mem_iff_get?.mp hf
    have hpair : ((i, f) : Nat × Expr) ∈ fields.enum :=
      List.mk_mem_enum_iff_get?.mpr hi
    have := length_filter_lt_of_exists_not
      (l := fields.enum) (p := fun p => is_aggregate_expr p.2) ⟨(i, f), hpair, hfa⟩
    rw [List.enum_length] at this
    omega
  rw [if_neg hlt]
  rw [row_pass_ok schema fields _
      (fun r => ⟨fields.enum.map fun p =>
        if is_aggregate_expr p.2 then g p.1 else e r p.1⟩)
      rows [] cost
      (fun r hr => project_field_row_spec schema fields g e r
        fun p hp hpa => hrow r hr p hp hpa)]
  rfl

/-!  Claims C2 and C4: the hash join. -/

theorem build_fold_ok (hf : Value → Nat) (ls : Schema) (on_ : JoinOn) (kL : Row → Value) :
    ∀ (rows : List Row) (m : HashBuckets Row) (c : Cost),
      (∀ l ∈ rows, l.get_column on_.left ls = some (kL l)) →
      (rows.foldlM
        (fun acc left_row => do
          let cost := acc.2.increment_rows_processed
          match left_row.get_column on_.left ls with
          | none => throw (.qerr (.columnNotFoundInSchema on_.left))
          | some value => pure (mapInsert acc.1 (hf value) ([] : List Row), cost))
        (m, c) : Outcome (HashBuckets Row × Cost)) =
      .ok (rows.foldl (fun m l => mapInsert m (hf (kL l)) []) m,
           ⟨c.rows_processed + rows.length⟩) := by
  intro rows
  induction rows with
  | nil => intro m c _; simp; rfl
  | cons l rows ih =>
      intro m c hk
      rw [List.foldlM_cons, hk l (by simp)]
      have := ih (mapInsert m (hf (kL l)) []) c.increment_rows_processed
        fun q hq => hk q (by simp [hq])
      rw [show ((pure (mapInsert m (hf (kL l)) [], c.increment_rows_processed) : Outcome _) >>=
          fun acc => List.foldlM _ acc rows) =
          List.foldlM _ (mapInsert m (hf (kL l)) [], c.increment_rows_processed) rows from rfl,
        this]
      simp [Cost.increment_rows_processed]
      omega

theorem probe_fold_ok (hf : Value → Nat) (rs : Schema) (on_ : JoinOn) (kR : Row → Value) :
    ∀ (rows : List Row) (m : HashBuckets Row) (c : Cost),
      (∀ r ∈ rows, r.get_column on_.right rs = some (kR r)) →
      (rows.foldlM
        (fun acc right_row => do
          let cost := acc.2.increment_rows_processed
          match right_row.get_column on_.right rs with
          | none => throw (.qerr (.columnNotFoundInSchema on_.right))
          | some value => pure (mapPush acc.1 (hf value) right_row, cost))
        (m, c) : Outcome (HashBuckets Row × Cost)) =
      .ok (rows.foldl (fun m r => mapPush m (hf (kR r)) r) m,
           ⟨c.rows_processed + rows.length⟩) := by
  intro rows
  induction rows with
  | nil => intro m c _; simp; rfl
  | cons r rows ih =>
      intro m c hk
      rw [List.foldlM_cons, hk r (by simp)]
      have := ih (mapPush m (hf (kR r)) r) c.increment_rows_processed
        fun q hq => hk q (by simp [hq])
      rw [show ((pure (mapPush m (hf (kR r)) r, c.increment_rows_processed) : Outcome _) >>=
          fun acc => List.foldlM _ acc rows) =
          List.foldlM _ (mapPush m (hf (kR r)) r, c.increment_rows_processed) rows from rfl,
        this]
      simp [Cost.increment_rows_processed]
      omega

theorem mapInsert_get {α : Type} (m : HashBuckets α) (k : Nat) (v : List α) (x : Nat) :
    mapInsert m k v x = if x = k then some v else m x := rfl

theorem mapPush_get {α : Type} (m : HashBuckets α) (k : Nat) (a : α) (x : Nat) :
    mapPush m k a x = if x = k then (m x).map (fun l => l ++ [a]) else m x := rfl

theorem foldl_mapInsert_get (f : Row → Nat) :
    ∀ (rows : List Row) (m : HashBuckets Row) (x : Nat),
      (rows.foldl (fun m l => mapInsert m (f l) []) m) x =
        if rows.any (fun l => f l = x) then some [] else m x := by
  intro rows
  induction rows with
  | nil => intro m x; simp
  | cons l rows ih =>
      intro m x
      rw [List.foldl_cons, ih]
      simp only [List.any_cons, Bool.or_eq_true, decide_eq_true_eq]
      by_cases hr : rows.any (fun l => f l = x) = true
      · rw [if_pos hr, if_pos (Or.inr hr)]
      · rw [if_neg hr, mapInsert_get]
        by_cases hx : f l = x
        · rw [if_pos hx.symm, if_pos (Or.inl hx)]
        · rw [if_neg (fun hxx => hx hxx.symm), if_neg (by simp [hx, hr])]

theorem foldl_mapPush_get (f : Row → Nat) :
    ∀ (rows : List Row) (m : HashBuckets Row) (x : Nat),
      (rows.foldl (fun m r => mapPush m (f r) r) m) x =
        (m x).map (fun l => l ++ rows.filter (fun r => f r = x)) := by
  intro rows
  induction rows with
  | nil =>
      intro m x
      cases hmx : m x <;> simp [hmx]
  | cons r rows ih =>
      intro m x
      rw [List.foldl_cons, ih, mapPush_get]
      by_cases hx : f r = x
      · rw [List.filter_cons_of_pos (by simp [hx]), if_pos hx.symm]
        cases hmx : m x <;> simp [hmx]
      · rw [List.filter_cons_of_neg (by simp [hx]), if_neg (fun hxx => hx hxx.symm)]

/-- The bucket contents after the build and probe phases: left-key hashes map
to the right rows whose key hash matches, in right scan order; all other
hashes are absent. -/
theorem stuff_get (hf : Value → Nat) (kL kR : Row → Value) (L R : List Row) (x : Nat) :
    (R.foldl (fun m r => mapPush m (hf (kR r)) r)
      (L.foldl (fun m l => mapInsert m (hf (kL l)) []) mapEmpty)) x =
      if L.any (fun l => hf (kL l) = x) then
        some (R.filter (fun r => hf (kR r) = x))
      else none := by
  rw [foldl_mapPush_get, foldl_mapInsert_get]
  by_cases hx : L.any (fun l => hf (kL l) = x)
  · simp [hx, mapEmpty]
  · simp [hx, mapEmpty]

theorem emit_fold_ok (hf : Value → Nat) (ls rs : Schema) (on_ : JoinOn)
    (kL : Row → Value) (st : HashBuckets Row) (join_type : JoinType) :
    ∀ (rows : List Row) (acc : List Row) (c : Cost),
      (∀ l ∈ rows, l.get_column on_.left ls = some (kL l)) →
      (rows.foldlM
        (fun acc left_row => do
          let cost := acc.2.increment_rows_processed
          match left_row.get_column on_.left ls with
          | none => throw (.qerr (.columnNotFoundInSchema on_.left))
          | some value =>
            match st (hf value) with
            | some rhs =>
              if rhs.isEmpty then
                match join_type with
                | .leftOuter =>
                    pure (acc.1 ++ [{ items := left_row.items ++
                        rs.columns.map fun _ => Value.null }], cost)
                | .inner => pure (acc.1, cost)
              else
                pure (acc.1 ++ rhs.map fun item => left_row.extendRow item, cost)
            | none => pure (acc.1, cost))
        (acc, c) : Outcome (List Row × Cost)) =
      .ok (acc ++ rows.flatMap (emitRowSt hf kL st rs join_type),
           ⟨c.rows_processed + rows.length⟩) := by
  intro rows
  induction rows with
  | nil => intro acc c _; simp; rfl
  | cons l rows ih =>
      intro acc c hk
      rw [List.foldlM_cons, hk l (by simp)]
      have ihr := fun acc2 => ih acc2 c.increment_rows_processed
        fun q hq => hk q (by simp [hq])
      simp only [List.flatMap_cons]
      cases hst : st (hf (kL l)) with
      | none =>
          simp only [pure_bind]
          rw [ihr]
          simp [Cost.increment_rows_processed, emitRowSt, hst]
          omega
      | some rhs =>
          dsimp only
          by_cases hempty : rhs.isEmpty
          · rw [if_pos hempty]
            cases join_type with
            | leftOuter =>
                simp only [pure_bind]
                rw [ihr]
                simp [Cost.increment_rows_processed, emitRowSt, hst, hempty]
                omega
            | inner =>
                simp only [pure_bind]
                rw [ihr]
                simp [Cost.increment_rows_processed, emitRowSt, hst, hempty]
                omega
          · rw [if_neg hempty]
            simp only [pure_bind]
            rw [ihr]
            simp [Cost.increment_rows_processed, emitRowSt, hst, hempty]
            omega

/-- Full characterisation of `hash_join` when every key lookup succeeds. -/
theorem hash_join_spec (hf : Value → Nat) (kL kR : Row → Value)
    (L : List Row) (ls : Schema) (R : List Row) (rs : Schema) (on_ : JoinOn)
    (join_type : JoinType) (cost : Cost)
    (hkL : ∀ l ∈ L, l.get_column on_.left ls = some (kL l))
    (hkR : ∀ r ∈ R, r.get_column on_.right rs = some (kR r)) :
    hash_join hf L ls R rs on_ join_type cost =
      .ok { schema := ls.extendSchema rs,
            rows := L.flatMap (emitRow hf kL kR R rs join_type),
            cost := ⟨cost.rows_processed + L.length + R.length + L.length⟩ } := by
  unfold hash_join
  rw [build_fold_ok hf ls on_ kL L mapEmpty cost hkL, okBind]
  dsimp only
  rw [probe_fold_ok hf rs on_ kR R _ _ hkR, okBind]
  dsimp only
  rw [emit_fold_ok hf ls rs on_ kL _ join_type L [] _ hkL, okBind]
  simp only [List.nil_append]
  have hbind : L.flatMap (emitRowSt hf kL
      (R.foldl (fun m r => mapPush m (hf (kR r)) r)
        (L.foldl (fun m l => mapInsert m (hf (kL l)) []) mapEmpty)) rs join_type) =
      L.flatMap (emitRow hf kL kR R rs join_type) := by
    refine List.flatMap_congr fun l hl => ?_
    unfold emitRowSt
    rw [stuff_get]
    rw [if_pos (List.any_eq_true.mpr ⟨l, hl, by simp⟩)]
    rfl
  rw [hbind]
  rfl

/-!  Claim C1: IndexScan against Filter-over-TableScan. -/

theorem getKey_mapRemove_ne {k k2 : String} (hne : k2 ≠ k) :
    ∀ {fields : List (String × Value)} {v : Value} {rest : List (String × Value)},
      mapRemove fields k = some (v, rest) →
      (Value.obj rest).getKey k2 = (Value.obj fields).getKey k2 := by
  intro fields
  induction fields with
  | nil => intro v rest h; cases h
  | cons p fields ih =>
      intro v rest h
      unfold mapRemove at h
      by_cases hpk : p.1 == k
      · rw [if_pos hpk] at h
        cases p with
        | mk key hv =>
            injection h with h1
            injection h1 with h1 h2
            subst h2
            have hkk : (key == k2) = false :=
              beq_eq_false_iff_ne.mpr fun hx =>
                hne (hx.symm.trans (beq_iff_eq.mp hpk))
            simp [Value.getKey, List.find?, hkk]
      · rw [if_neg hpk] at h
        cases hrec : mapRemove fields k with
        | none => rw [hrec] at h; cases h
        | some q =>
            rw [hrec] at h
            injection h with h1
            injection h1 with h1 h2
            subst h2
            cases p with
            | mk key hv =>
                by_cases hk2 : key == k2
                · simp [Value.getKey, List.find?, hk2]
                · simp only [Value.getKey, List.find?]
                  cases q with
                  | mk qv qrest =>
                      simp only at h1
                      subst h1
                      simp only [List.find?, hk2]
                      have := ih hrec
                      simpa [Value.getKey] using this

theorem mapRemove_of_getKey {k : String} :
    ∀ {fields : List (String × Value)} {v : Value},
      (Value.obj fields).getKey k = some v →
      ∃ rest, mapRemove fields k = some (v, rest) := by
  intro fields
  induction fields with
  | nil => intro v h; cases h
  | cons p fields ih =>
      intro v h
      cases p with
      | mk key hv =>
          by_cases hpk : key == k
          · refine ⟨fields, ?_⟩
            unfold mapRemove
            rw [if_pos hpk]
            simp only [Value.getKey, List.find?, hpk] at h
            have h2 : hv = v := by simpa using h
            rw [← h2]
          · simp only [Value.getKey, List.find?, hpk] at h
            obtain ⟨rest, hrest⟩ := ih (by simpa [Value.getKey] using h)
            refine ⟨(key, hv) :: rest, ?_⟩
            unfold mapRemove
            rw [if_neg hpk, hrest]
            rfl

theorem into_row_fold_ok :
    ∀ (columns : List Column) (fields : List (String × Value)) (acc : List Value),
      (columns.map (·.name)).Nodup →
      (∀ col ∈ columns, ((Value.obj fields).getKey col.name).isSome = true) →
      (columns.foldlM
        (fun acc column =>
          match mapRemove acc.2 column.name with
          | some p => pure (acc.1 ++ [p.1], p.2)
          | none => throw (.panicked "could not find column"))
        ((acc, fields)) : Outcome (List Value × List (String × Value))) =
      .ok (acc ++ columns.map fun col => ((Value.obj fields).getKey col.name).getD .null,
           (columns.foldl (fun flds col => ((mapRemove flds col.name).map (·.2)).getD flds)
             fields)) := by
  intro columns
  induction columns with
  | nil => intro fields acc _ _; simp; rfl
  | cons col columns ih =>
      intro fields acc hnd hall
      rw [List.foldlM_cons]
      obtain ⟨v, hv⟩ := Option.isSome_iff_exists.mp (hall col (by simp))
      obtain ⟨rest, hrest⟩ := mapRemove_of_getKey hv
      rw [hrest]
      simp only [pure_bind]
      simp only [List.map_cons, List.nodup_cons] at hnd
      have hne2 : ∀ col2 ∈ columns, col2.name ≠ col.name := by
        intro col2 h2 hx
        exact hnd.1 (hx ▸ List.mem_map.mpr ⟨col2, h2, rfl⟩)
      have hallrest : ∀ col2 ∈ columns,
          ((Value.obj rest).getKey col2.name).isSome = true := by
        intro col2 h2
        rw [getKey_mapRemove_ne (hne2 col2 h2) hrest]
        exact hall col2 (by simp [h2])
      rw [ih rest (acc ++ [v]) hnd.2 hallrest]
      have hmap : (columns.map fun col2 => ((Value.obj rest).getKey col2.name).getD .null) =
          columns.map fun col2 => ((Value.obj fields).getKey col2.name).getD .null := by
        refine List.map_congr_left fun col2 h2 => ?_
        rw [getKey_mapRemove_ne (hne2 col2 h2) hrest]
      rw [hmap]
      simp only [List.map_cons, hv, Option.getD_some, List.foldl_cons, hrest,
        Option.map_some]
      simp [List.append_assoc]

theorem into_row_ok (columns : List Column) (fields : List (String × Value))
    (hnd : (columns.map (·.name)).Nodup)
    (hall : ∀ col ∈ columns, ((Value.obj fields).getKey col.name).isSome = true) :
    into_row (.obj fields) columns =
      .ok ⟨columns.map fun col => ((Value.obj fields).getKey col.name).getD .null⟩ := by
  simp only [into_row]
  rw [into_row_fold_ok columns fields [] hnd hall]
  rfl

theorem scan_fold_ok (columns : List Column) (toRow : Value → Row) :
    ∀ (raws : List Value) (acc : List Row) (c : Cost),
      (∀ raw ∈ raws, into_row raw columns = .ok (toRow raw)) →
      (raws.foldlM
        (fun acc r => do
          let cost := acc.2.increment_rows_processed
          let row ← into_row r columns
          pure (acc.1 ++ [row], cost))
        (acc, c) : Outcome (List Row × Cost)) =
      .ok (acc ++ raws.map toRow, ⟨c.rows_processed + raws.length⟩) := by
  intro raws
  induction raws with
  | nil => intro acc c _; simp; rfl
  | cons raw raws ih =>
      intro acc c hok
      rw [List.foldlM_cons, hok raw (by simp), okBind]
      simp only [pure_bind]
      rw [ih (acc ++ [toRow raw]) c.increment_rows_processed
        fun q hq => hok q (by simp [hq])]
      simp [Cost.increment_rows_processed]
      omega

/-- `table_scan` under a well-formed catalog entry and row source. -/
theorem table_scan_ok (rowSource : TableName → List Value) (catalog : Catalog)
    (T : TableName) (al : Option TableAlias) (tbl : Table) (toRow : Value → Row)
    (hcat : catalogGet catalog T = some tbl)
    (hok : ∀ raw ∈ rowSource T,
      into_row raw (tbl.columns.map fun name => Column.mk name al) = .ok (toRow raw)) :
    table_scan rowSource catalog T al =
      .ok { schema := ⟨(tbl.columns.map fun name => Column.mk name al).map .column⟩,
            rows := (rowSource T).map toRow,
            cost := ⟨(rowSource T).length⟩ } := by
  unfold table_scan tableColumns
  rw [hcat]
  simp only [pure_bind, okBind]
  rw [scan_fold_ok _ toRow (rowSource T) [] Cost.new hok, okBind]
  simp only [List.nil_append, Cost.new, Nat.zero_add]
  rfl

theorem foldl_mapAdd_get {β : Type} (f : β → Nat) (g : β → Nat) :
    ∀ (xs : List β) (m : HashBuckets Nat) (x : Nat),
      (xs.foldl (fun m b => mapAdd m (f b) (g b)) m) x =
        if (xs.filter fun b => f b = x).isEmpty then m x
        else some (((m x).getD []) ++ (xs.filter fun b => f b = x).map g) := by
  intro xs
  induction xs with
  | nil => intro m x; simp
  | cons b xs ih =>
      intro m x
      rw [List.foldl_cons, ih]
      by_cases hb : f b = x
      · rw [List.filter_cons_of_pos (by simp [hb])]
        simp only [List.isEmpty_cons, Bool.false_eq_true, if_false]
        have hmx : mapAdd m (f b) (g b) x = some (((m x).getD []) ++ [g b]) := by
          unfold mapAdd
          rw [if_pos hb.symm]
        by_cases hxs : (xs.filter fun b2 => f b2 = x).isEmpty
        · rw [if_pos hxs, hmx]
          have : (xs.filter fun b2 => f b2 = x) = [] := by
            simpa [List.isEmpty_iff] using hxs
          simp [this]
        · rw [if_neg hxs, hmx]
          simp [List.append_assoc]
      · rw [List.filter_cons_of_neg (by simp [hb])]
        have hmx : mapAdd m (f b) (g b) x = m x := by
          unfold mapAdd
          rw [if_neg (fun hx => hb hx.symm)]
        rw [hmx]

/-- The bucket of a constructed index: the positions (in scan order) of the
rows whose key tuple hashes to the bucket's hash. -/
theorem construct_index_bucket (hf : Value → Nat) (idx : Index) (raws : List Value)
    (x : Nat) :
    ((construct_index hf idx raws).items x).getD [] =
      (raws.enum.filter fun p => hf (.arr (indexKey idx p.2)) = x).map (·.1) := by
  unfold construct_index
  dsimp only
  rw [foldl_mapAdd_get (fun p => hf (.arr (indexKey idx p.2))) (fun p => p.1) raws.enum
    mapEmpty x]
  by_cases hx : (raws.enum.filter fun p => hf (.arr (indexKey idx p.2)) = x).isEmpty
  · rw [if_pos hx]
    have : (raws.enum.filter fun p => hf (.arr (indexKey idx p.2)) = x) = [] := by
      simpa [List.isEmpty_iff] using hx
    simp [this, mapEmpty]
  · rw [if_neg hx]
    simp [mapEmpty]

theorem bucket_fold_ok (hf : Value → Nat) (columns : List Column) (toRow : Value → Row)
    (idx : Index) (probe : Value) (raws : List Value) :
    ∀ (ps : List (Nat × Value)) (acc : List Row) (c : Cost),
      (∀ p ∈ ps, raws.get? p.1 = some p.2) →
      (∀ p ∈ ps, into_row p.2 columns = .ok (toRow p.2)) →
      ((ps.map (·.1)).foldlM
        (fun acc i => do
          match raws.get? i with
          | none => throw (.panicked "index position out of range")
          | some r =>
            if (Value.arr (indexKey idx r)).rustEq probe then do
              let cost := acc.2.increment_rows_processed
              let row ← into_row r columns
              pure (acc.1 ++ [row], cost)
            else
              pure acc)
        (acc, c) : Outcome (List Row × Cost)) =
      .ok (acc ++ (ps.filter fun p => (Value.arr (indexKey idx p.2)).rustEq probe).map
            (fun p => toRow p.2),
           ⟨c.rows_processed +
             (ps.filter fun p => (Value.arr (indexKey idx p.2)).rustEq probe).length⟩) := by
  intro ps
  induction ps with
  | nil => intro acc c _ _; simp; rfl
  | cons p ps ih =>
      intro acc c hget hok
      rw [List.map_cons, List.foldlM_cons, hget p (by simp)]
      by_cases hkey : (Value.arr (indexKey idx p.2)).rustEq probe
      · rw [List.filter_cons_of_pos (by simp [hkey])]
        simp only [hkey, if_true]
        rw [hok p (by simp), okBind]
        simp only [pure_bind]
        rw [ih (acc ++ [toRow p.2]) c.increment_rows_processed
          (fun q hq => hget q (by simp [hq])) (fun q hq => hok q (by simp [hq]))]
        simp [Cost.increment_rows_processed]
        omega
      · rw [List.filter_cons_of_neg (by simp [hkey])]
        simp only [hkey]
        simp only [Bool.false_eq_true, if_false, pure_bind]
        exact ih acc c (fun q hq => hget q (by simp [hq])) (fun q hq => hok q (by simp [hq]))

theorem filter_fold_ok (schema : Schema) (e : Expr) (pred : Row → Bool) :
    ∀ (rows : List Row) (acc : List Row) (c : Cost),
      (∀ r ∈ rows, apply_predicate r schema e = .ok (pred r)) →
      (rows.foldlM
        (fun acc row => do
          let cost := acc.2.increment_rows_processed
          if ← apply_predicate row schema e then pure (acc.1 ++ [row], cost)
          else pure (acc.1, cost))
        (acc, c) : Outcome (List Row × Cost)) =
      .ok (acc ++ rows.filter pred, ⟨c.rows_processed + rows.length⟩) := by
  intro rows
  induction rows with
  | nil => intro acc c _; simp; rfl
  | cons r rows ih =>
      intro acc c hp
      rw [List.foldlM_cons, hp r (by simp), okBind]
      cases hpr : pred r with
      | true =>
          rw [List.filter_cons_of_pos (by simp [hpr])]
          simp only [hpr, if_true, pure_bind]
          rw [ih (acc ++ [r]) c.increment_rows_processed fun q hq => hp q (by simp [hq])]
          simp [Cost.increment_rows_processed]
          omega
      | false =>
          rw [List.filter_cons_of_neg (by simp [hpr])]
          simp only [hpr, Bool.false_eq_true, if_false, pure_bind]
          rw [ih acc c.increment_rows_processed fun q hq => hp q (by simp [hq])]
          simp [Cost.increment_rows_processed]
          omega

theorem findIdx_of_names (al : Option TableAlias) (c : String) :
    ∀ names : List String, c ∈ names →
      ∃ i, List.findIdx?
          (fun sc => match sc with
            | SchemaColumn.column cc => cc = Column.mk c al
            | _ => false)
          (names.map fun n => SchemaColumn.column ⟨n, al⟩) = some i
        ∧ names.get? i = some c := by
  intro names
  induction names with
  | nil => intro h; cases h
  | cons n names ih =>
      intro hmem
      simp only [List.map_cons, List.findIdx?_cons]
      by_cases hnc : n = c
      · subst hnc
        exact ⟨0, by simp, rfl⟩
      · have hmem2 : c ∈ names := by
          rcases List.mem_cons.mp hmem with h | h
          · exact absurd h.symm hnc
          · exact h
        obtain ⟨i, hi, hg⟩ := ih hmem2
        refine ⟨i + 1, ?_, by simpa using hg⟩
        rw [if_neg (by simp [hnc]), List.findIdx?_succ, hi]
        rfl

theorem row_get_column_of_names (al : Option TableAlias) (f : String → Value)
    (c : String) (names : List String) (hmem : c ∈ names) :
    Row.get_column ⟨names.map f⟩ ⟨c, al⟩
      ⟨names.map fun n => SchemaColumn.column ⟨n, al⟩⟩ = some (f c) := by
  obtain ⟨i, hi, hg⟩ := findIdx_of_names al c names hmem
  unfold Row.get_column Schema.get_index_for_column
  simp only
  rw [hi]
  have : (names.map f).get? i = some (f c) := by
    rw [List.get?_map, hg]
    rfl
  simpa using this

/-- Rust `==` on two singleton JSON arrays is `==` on the payloads. -/
theorem rustEq_arr_singleton (a b : Value) :
    (Value.arr [a]).rustEq (Value.arr [b]) = a.rustEq b := by
  simp [Value.rustEq, Value.listRustEq]

theorem bind_if_singleton {α β : Type} (p : α → Bool) (g : α → β) :
    ∀ l : List α, (l.flatMap fun a => if p a then [g a] else []) = (l.filter p).map g := by
  intro l
  induction l with
  | nil => rfl
  | cons a l ih =>
      simp only [List.flatMap_cons]
      rw [ih]
      by_cases hp : p a
      · rw [List.filter_cons_of_pos (by simp [hp])]
        simp [hp]
      · rw [List.filter_cons_of_neg (by simp [hp])]
        simp [hp]

/-- `index_scan` with a single probe key, under a well-formed catalog entry
and row source: it emits, in scan order, the rows whose key tuple hashes like
the probe key and is value-equal to it, at cost one per emitted row. -/
theorem index_scan_ok (hf : Value → Nat) (rowSource : TableName → List Value)
    (catalog : Catalog) (T : TableName) (al : Option TableAlias) (tbl : Table)
    (idx : Index) (probe : Value) (toRow : Value → Row)
    (hcat : catalogGet catalog T = some tbl)
    (hok : ∀ raw ∈ rowSource T,
      into_row raw (tbl.columns.map fun name => Column.mk name al) = .ok (toRow raw)) :
    index_scan hf rowSource catalog T al idx [probe] =
      .ok { schema := ⟨(tbl.columns.map fun name => Column.mk name al).map .column⟩,
            rows := (((rowSource T).enum.filter fun p =>
                hf (.arr (indexKey idx p.2)) = hf probe).filter fun p =>
                  (Value.arr (indexKey idx p.2)).rustEq probe).map fun p => toRow p.2,
            cost := ⟨(((rowSource T).enum.filter fun p =>
                hf (.arr (indexKey idx p.2)) = hf probe).filter fun p =>
                  (Value.arr (indexKey idx p.2)).rustEq probe).length⟩ } := by
  unfold index_scan tableColumns
  rw [hcat]
  simp only [pure_bind, okBind, List.foldlM_cons, List.foldlM_nil]
  rw [construct_index_bucket hf idx (rowSource T) (hf probe)]
  have hget : ∀ p ∈ (rowSource T).enum.filter fun p =>
      hf (.arr (indexKey idx p.2)) = hf probe, (rowSource T).get? p.1 = some p.2 := by
    intro p hp
    exact List.mem_enum_iff_get?.mp (List.mem_filter.mp hp).1
  have hok2 : ∀ p ∈ (rowSource T).enum.filter fun p =>
      hf (.arr (indexKey idx p.2)) = hf probe,
      into_row p.2 (tbl.columns.map fun name => Column.mk name al) = .ok (toRow p.2) := by
    intro p hp
    exact hok p.2 (List.get?_mem (hget p hp))
  rw [bucket_fold_ok hf _ toRow idx probe (rowSource T) _ [] Cost.new hget hok2]
  simp only [okBind, List.nil_append, pure_bind, Cost.new, Nat.zero_add]
  rfl

/-- Claim C1: `IndexScan(T, index-on-c, probeKeys = [Array(v)])` emits exactly
the row list of `Filter(TableScan(T), c = v)` — list equality, hence the same
multiset with scan-order agreement — given a well-formed catalog entry and
row source and the Rust `Hash`/`Eq` contract (`==`-equal values hash
equally).  The `index_scan` operator itself is modelled from spec §4.6, its
source body being an unfinished fragment. -/
theorem C1_index_scan_matches_filter_table_scan
    (hf : Value → Nat) (rowSource : TableName → List Value) (catalog : Catalog)
    (T : TableName) (al : Option TableAlias) (tbl : Table) (c : ColumnName) (v : Value)
    (hcat : catalogGet catalog T = some tbl)
    (hc : c ∈ tbl.columns)
    (hnd : tbl.columns.Nodup)
    (hraw : ∀ raw ∈ rowSource T, ∃ flds, raw = Value.obj flds ∧
      ∀ name ∈ tbl.columns, ((Value.obj flds).getKey name).isSome = true)
    (hcong : ∀ a b : Value, a.rustEq b = true → hf a = hf b) :
    (run_physical_plan hf rowSource catalog
        (.indexScan T al ⟨T, [c]⟩ [.arr [v]])).map QueryStep.rows =
    (run_physical_plan hf rowSource catalog
        (.filter (.tableScan T al)
          (.binaryOperation (.column ⟨c, al⟩) .equals (.literal v)))).map QueryStep.rows := by
  have hok : ∀ raw ∈ rowSource T,
      into_row raw (tbl.columns.map fun name => Column.mk name al) =
        .ok ⟨tbl.columns.map fun n => ((raw.getKey n).getD .null)⟩ := by
    intro raw hr
    obtain ⟨flds, rfl, hallk⟩ := hraw raw hr
    have hndc : ((tbl.columns.map fun name => Column.mk name al).map (·.name)).Nodup := by
      rw [List.map_map]
      have hid : ((fun x : Column => x.name) ∘ fun name => Column.mk name al) = id := rfl
      rw [hid, List.map_id]
      exact hnd
    have hallc : ∀ col ∈ tbl.columns.map fun name => Column.mk name al,
        ((Value.obj flds).getKey col.name).isSome = true := by
      intro col hcol
      obtain ⟨name, hname, rfl⟩ := List.mem_map.mp hcol
      exact hallk name hname
    rw [into_row_ok _ flds hndc hallc]
    congr 1
    rw [Row.mk.injEq, List.map_map]
    rfl
  -- the common row image of one raw record
  set toRow : Value → Row :=
    fun raw => ⟨tbl.columns.map fun n => ((raw.getKey n).getD .null)⟩ with htoRow
  -- the common value-level membership predicate
  set q : Value → Bool := fun raw => ((raw.getKey c).getD .null).rustEq v with hq
  -- filter side
  have hpred : ∀ raw : Value,
      apply_predicate (toRow raw)
        ⟨(tbl.columns.map fun name => Column.mk name al).map .column⟩
        (.binaryOperation (.column ⟨c, al⟩) .equals (.literal v)) = .ok (q raw) := by
    intro raw
    have hcol : Row.get_column (toRow raw) ⟨c, al⟩
        ⟨(tbl.columns.map fun name => Column.mk name al).map .column⟩ =
        some ((raw.getKey c).getD .null) := by
      have := row_get_column_of_names al (fun n => (raw.getKey n).getD .null) c
        tbl.columns hc
      rw [htoRow]
      simpa [List.map_map, Function.comp] using this
    have hevb : evaluate_expr (toRow raw)
        ⟨(tbl.columns.map fun name => Column.mk name al).map .column⟩
        (.binaryOperation (.column ⟨c, al⟩) .equals (.literal v)) =
        .ok (.bool (((raw.getKey c).getD .null).rustEq v)) := by
      simp only [evaluate_expr]
      rw [hcol]
      rfl
    unfold apply_predicate
    rw [hevb]
    rfl
  have hfil : run_physical_plan hf rowSource catalog
      (.filter (.tableScan T al)
        (.binaryOperation (.column ⟨c, al⟩) .equals (.literal v))) =
      .ok { schema := ⟨(tbl.columns.map fun name => Column.mk name al).map .column⟩,
            rows := ((rowSource T).map toRow).filter fun row =>
              ((row.get_column ⟨c, al⟩
                ⟨(tbl.columns.map fun name => Column.mk name al).map .column⟩).getD
                  .null).rustEq v,
            cost := ⟨(rowSource T).length + (rowSource T).length⟩ } := by
    simp only [run_physical_plan]
    rw [table_scan_ok rowSource catalog T al tbl toRow hcat hok, okBind]
    simp only
    rw [filter_fold_ok _ _ (fun row =>
        ((row.get_column ⟨c, al⟩
          ⟨(tbl.columns.map fun name => Column.mk name al).map .column⟩).getD
            .null).rustEq v)
      ((rowSource T).map toRow) [] ⟨(rowSource T).length⟩ ?hp]
    case hp =>
      intro r hr
      obtain ⟨raw, hraw2, rfl⟩ := List.mem_map.mp hr
      rw [hpred raw]
      congr 1
      have hcol : Row.get_column (toRow raw) ⟨c, al⟩
          ⟨(tbl.columns.map fun name => Column.mk name al).map .column⟩ =
          some ((raw.getKey c).getD .null) := by
        have := row_get_column_of_names al (fun n => (raw.getKey n).getD .null) c
          tbl.columns hc
        rw [htoRow]
        simpa [List.map_map, Function.comp] using this
      dsimp only
      rw [hcol]
      rfl
    rw [okBind]
    simp only [List.nil_append, List.length_map]
    rfl
  -- index side
  have hidx : run_physical_plan hf rowSource catalog
      (.indexScan T al ⟨T, [c]⟩ [.arr [v]]) =
      .ok { schema := ⟨(tbl.columns.map fun name => Column.mk name al).map .column⟩,
            rows := (((rowSource T).enum.filter fun p =>
                hf (.arr (indexKey ⟨T, [c]⟩ p.2)) = hf (.arr [v])).filter fun p =>
                  (Value.arr (indexKey ⟨T, [c]⟩ p.2)).rustEq (.arr [v])).map
                fun p => toRow p.2,
            cost := ⟨(((rowSource T).enum.filter fun p =>
                hf (.arr (indexKey ⟨T, [c]⟩ p.2)) = hf (.arr [v])).filter fun p =>
                  (Value.arr (indexKey ⟨T, [c]⟩ p.2)).rustEq (.arr [v])).length⟩ } := by
    rw [show run_physical_plan hf rowSource catalog
        (.indexScan T al ⟨T, [c]⟩ [.arr [v]]) =
        index_scan hf rowSource catalog T al ⟨T, [c]⟩ [.arr [v]] from rfl]
    exact index_scan_ok hf rowSource catalog T al tbl ⟨T, [c]⟩ (.arr [v]) toRow hcat hok
  rw [hfil, hidx]
  have hmapok : ∀ s : QueryStep,
      (Except.ok s : Outcome QueryStep).map QueryStep.rows = .ok s.rows := fun _ => rfl
  rw [hmapok, hmapok]
  congr 1
  -- reduce both row lists to `map toRow ((rowSource T).filter q)`
  have hkey : ∀ raw : Value, indexKey ⟨T, [c]⟩ raw = [(raw.getKey c).getD .null] := by
    intro raw
    rfl
  have hindex_rows : (((rowSource T).enum.filter fun p =>
      hf (.arr (indexKey ⟨T, [c]⟩ p.2)) = hf (.arr [v])).filter fun p =>
        (Value.arr (indexKey ⟨T, [c]⟩ p.2)).rustEq (.arr [v])).map (fun p => toRow p.2) =
      ((rowSource T).filter q).map toRow := by
    rw [List.filter_filter]
    have hmerge : ∀ p : Nat × Value,
        ((Value.arr (indexKey ⟨T, [c]⟩ p.2)).rustEq (.arr [v]) &&
          decide (hf (.arr (indexKey ⟨T, [c]⟩ p.2)) = hf (.arr [v]))) = q p.2 := by
      intro p
      rw [hkey, rustEq_arr_singleton]
      cases hqq : ((p.2.getKey c).getD .null).rustEq v with
      | true =>
          have heq : hf (.arr [(p.2.getKey c).getD .null]) = hf (.arr [v]) :=
            hcong _ _ (by rw [rustEq_arr_singleton]; exact hqq)
          simp [hq, heq, hqq]
      | false => simp [hq, hqq]
    rw [List.filter_congr fun p _ => hmerge p]
    have hsnd : ((rowSource T).enum.filter fun p => q p.2).map (fun p => toRow p.2) =
        (((rowSource T).enum.filter fun p => q p.2).map Prod.snd).map toRow := by
      rw [List.map_map]
      rfl
    rw [hsnd]
    congr 1
    have h1 : ((rowSource T).enum.map Prod.snd).filter q =
        ((rowSource T).enum.filter (q ∘ Prod.snd)).map Prod.snd :=
      List.filter_map _ _
    rw [List.enum_map_snd] at h1
    exact h1.symm
  have hfilter_rows : ((rowSource T).map toRow).filter (fun row =>
      ((row.get_column ⟨c, al⟩
        ⟨(tbl.columns.map fun name => Column.mk name al).map .column⟩).getD
          .null).rustEq v) = ((rowSource T).filter q).map toRow := by
    rw [List.filter_map]
    congr 1
    refine List.filter_congr fun raw _ => ?_
    have hcol : Row.get_column (toRow raw) ⟨c, al⟩
        ⟨(tbl.columns.map fun name => Column.mk name al).map .column⟩ =
        some ((raw.getKey c).getD .null) := by
      have := row_get_column_of_names al (fun n => (raw.getKey n).getD .null) c
        tbl.columns hc
      rw [htoRow]
      simpa [List.map_map, Function.comp] using this
    simp only [Function.comp, hcol, hq]
    rfl
  rw [hindex_rows, hfilter_rows]

theorem C1_index_scan_matches_filter_table_scan_witness :
    (run_physical_plan (fun _ => 0) staticRowSource staticCatalog
        (.indexScan "animal" none ⟨"animal", ["species_id"]⟩
          [.arr [.intNum 1]])).map QueryStep.rows =
    (run_physical_plan (fun _ => 0) staticRowSource staticCatalog
        (.filter (.tableScan "animal" none)
          (.binaryOperation (.column ⟨"species_id", none⟩) .equals
            (.literal (.intNum 1))))).map QueryStep.rows :=
  C1_index_scan_matches_filter_table_scan (fun _ => 0) staticRowSource staticCatalog
    "animal" none
    { columns := ["animal_id", "animal_name", "species_id"],
      indexes :=
        [ { table_name := "animal", columns := ["animal_id"] },
          { table_name := "animal", columns := ["species_id"] } ] }
    "species_id" (.intNum 1) rfl (by decide) (by decide)
    (by
      intro raw hr
      have hr3 : raw = Value.obj [("animal_id", .intNum 1), ("animal_name", .str "horse"),
            ("species_id", .intNum 1)] ∨
          raw = Value.obj [("animal_id", .intNum 2), ("animal_name", .str "dog"),
            ("species_id", .intNum 1)] ∨
          raw = Value.obj [("animal_id", .intNum 3), ("animal_name", .str "snake"),
            ("species_id", .intNum 2)] := by
        simpa [staticRowSource, animalRows] using hr
      rcases hr3 with rfl | rfl | rfl
      · exact ⟨_, rfl, by decide⟩
      · exact ⟨_, rfl, by decide⟩
      · exact ⟨_, rfl, by decide⟩)
    (fun _ _ _ => rfl)

/-!  Claim C3: the Filter-over-From to IndexScan rewrite. -/

theorem findSome?_of_first {A B : Type} (f : A → Option B) :
    ∀ (l : List A) (i : Nat) (a : A) (b : B),
      l.get? i = some a →
      (∀ j < i, ∀ p, l.get? j = some p → f p = none) →
      f a = some b →
      l.findSome? f = some b := by
  intro l
  induction l with
  | nil => intro i a b hget _ _; cases hget
  | cons x l ih =>
      intro i a b hget hfirst hfa
      cases i with
      | zero =>
          cases hget
          rw [List.findSome?_cons, hfa]
      | succ i =>
          rw [List.findSome?_cons, hfirst 0 (Nat.succ_pos i) x rfl]
          exact ih i a b hget
            (fun j hj p hp => hfirst (j + 1) (Nat.succ_lt_succ hj) p hp) hfa

/-- Claim C3: when the top-level equality bindings of the predicate fully
cover the column list of the `i`-th index of the table and cover no earlier
index, rewriting `Filter(From(T,α), pred)` yields exactly
`IndexScan(T, α, that index, probeKeys = [Array(bound values in index-column
order)])` — the `Filter` node is dropped entirely. -/
theorem C3_filter_over_from_uses_first_covering_index
    (indexes : ConstructedIndexes) (T : TableName) (al : Option TableAlias)
    (pred : CExpr) (tbl : List (Index × ConstructedIndex)) (i : Nat)
    (idx : Index) (cidx : ConstructedIndex) (vs : List Value)
    (htbl : indexes T = some tbl)
    (hith : tbl.get? i = some (idx, cidx))
    (hfirst : ∀ j < i, ∀ p, tbl.get? j = some p →
      p.1.columns.mapM (fcGet (columns_in_filter pred)) = none)
    (hcov : idx.columns.mapM (fcGet (columns_in_filter pred)) = some vs) :
    to_physical_plan indexes (.filter (.fromTable T al) pred) =
      .indexScan T al idx [Value.arr vs] := by
  have hfind : find_index indexes T (columns_in_filter pred) =
      some (idx, [Value.arr vs]) := by
    unfold find_index
    rw [htbl]
    exact findSome?_of_first _ tbl i (idx, cidx) _ hith
      (fun j hj p hp => by rw [hfirst j hj p hp]; rfl)
      (by rw [hcov]; rfl)
  simp only [to_physical_plan, filter_to_physical_plan, hfind]

/-- Witness for C3 on the static catalog's `animal` table: the binding
`species_id = 1` skips the first index (on `animal_id`, not covered) and
selects the second (on `species_id`), with probe key `[Array(1)]` and no
residual Filter. -/
theorem C3_first_covering_index_witness :
    to_physical_plan
      (fun t => if t == "animal" then
        some [(⟨"animal", ["animal_id"]⟩,
                construct_index (fun _ => 0) ⟨"animal", ["animal_id"]⟩ animalRows),
              (⟨"animal", ["species_id"]⟩,
                construct_index (fun _ => 0) ⟨"animal", ["species_id"]⟩ animalRows)]
       else none)
      (.filter (.fromTable "animal" none)
        (.columnComparison ⟨"species_id", none⟩ .equals (.intNum 1))) =
      .indexScan "animal" none ⟨"animal", ["species_id"]⟩ [.arr [.intNum 1]] := by
  have := C3_filter_over_from_uses_first_covering_index
    (fun t => if t == "animal" then
      some [(⟨"animal", ["animal_id"]⟩,
              construct_index (fun _ => 0) ⟨"animal", ["animal_id"]⟩ animalRows),
            (⟨"animal", ["species_id"]⟩,
              construct_index (fun _ => 0) ⟨"animal", ["species_id"]⟩ animalRows)]
     else none)
    "animal" none
    (.columnComparison ⟨"species_id", none⟩ .equals (.intNum 1))
    [(⟨"animal", ["animal_id"]⟩,
       construct_index (fun _ => 0) ⟨"animal", ["animal_id"]⟩ animalRows),
     (⟨"animal", ["species_id"]⟩,
       construct_index (fun _ => 0) ⟨"animal", ["species_id"]⟩ animalRows)]
    1 ⟨"animal", ["species_id"]⟩
    (construct_index (fun _ => 0) ⟨"animal", ["species_id"]⟩ animalRows)
    [.intNum 1]
    rfl rfl
    (by
      intro j hj p hp
      have hj0 : j = 0 := by omega
      subst hj0
      injection hp with hp
      subst hp
      rfl)
    rfl
  exact this

/-- Claim C2 (amended): when the hash function is injective on the join-key
values occurring in the inputs, every Inner-join output row is the
concatenation of a left row and a right row whose join-key values are
structurally equal.  (Without the injectivity assumption only hash equality
of the keys holds; see the counterexample.) -/
theorem C2_inner_join_keys_equal (hf : Value → Nat) (kL kR : Row → Value)
    (L : List Row) (ls : Schema) (R : List Row) (rs : Schema) (on_ : JoinOn)
    (cost : Cost) (step : QueryStep)
    (hkL : ∀ l ∈ L, l.get_column on_.left ls = some (kL l))
    (hkR : ∀ r ∈ R, r.get_column on_.right rs = some (kR r))
    (hinj : ∀ l ∈ L, ∀ r ∈ R, hf (kL l) = hf (kR r) → kL l = kR r)
    (hrun : hash_join hf L ls R rs on_ .inner cost = .ok step) :
    ∀ row ∈ step.rows, ∃ l ∈ L, ∃ r ∈ R, row = l.extendRow r ∧ kL l = kR r := by
  rw [hash_join_spec hf kL kR L ls R rs on_ .inner cost hkL hkR] at hrun
  injection hrun with hrun
  subst hrun
  intro row hrow
  simp only at hrow
  obtain ⟨l, hl, hrowl⟩ := List.mem_flatMap.mp hrow
  unfold emitRow at hrowl
  by_cases hempty : (R.filter fun r => hf (kR r) = hf (kL l)).isEmpty
  · rw [if_pos hempty] at hrowl
    cases hrowl
  · rw [if_neg hempty] at hrowl
    obtain ⟨r, hrf, hre⟩ := List.mem_map.mp hrowl
    have hrR := List.mem_filter.mp hrf
    refine ⟨l, hl, r, hrR.1, hre.symm, ?_⟩
    have hh : hf (kR r) = hf (kL l) := by simpa using hrR.2
    exact hinj l hl r hrR.1 hh.symm

/-- Witness for C2 at a concrete join (collision-free hash on the occurring
keys): the single output row decomposes into key-equal left and right rows. -/
theorem C2_inner_join_keys_equal_witness :
    ∃ l ∈ [(⟨[.intNum 1]⟩ : Row), ⟨[.intNum 2]⟩],
      ∃ r ∈ [(⟨[.intNum 2]⟩ : Row)],
        (⟨[.intNum 2, .intNum 2]⟩ : Row) = l.extendRow r ∧
          (fun q : Row => q.items.getD 0 .null) l =
            (fun q : Row => q.items.getD 0 .null) r :=
  C2_inner_join_keys_equal
    (fun v => (v.as_i64.getD 0).toNat)
    (fun q => q.items.getD 0 .null) (fun q => q.items.getD 0 .null)
    [⟨[.intNum 1]⟩, ⟨[.intNum 2]⟩] ⟨[.column ⟨"a", none⟩]⟩
    [⟨[.intNum 2]⟩] ⟨[.column ⟨"b", none⟩]⟩
    ⟨⟨"a", none⟩, ⟨"b", none⟩⟩ Cost.new
    ⟨⟨[.column ⟨"a", none⟩, .column ⟨"b", none⟩]⟩, [⟨[.intNum 2, .intNum 2]⟩], ⟨5⟩⟩
    (by decide) (by decide) (by decide) (by decide)
    ⟨[.intNum 2, .intNum 2]⟩ (by decide)

/-- Counterexample to C2 as stated: with the bucket map keyed by hash only, a
hash collision joins a left row and a right row whose join-key values differ
structurally — the output row holds 1 at the left join-key column and 2 at
the right join-key column. -/
theorem C2_inner_join_mismatch_counterexample :
    hash_join (fun _ => 0) [⟨[.intNum 1]⟩] ⟨[.column ⟨"a", none⟩]⟩
        [⟨[.intNum 2]⟩] ⟨[.column ⟨"b", none⟩]⟩ ⟨⟨"a", none⟩, ⟨"b", none⟩⟩
        .inner Cost.new =
      .ok ⟨⟨[.column ⟨"a", none⟩, .column ⟨"b", none⟩]⟩,
           [⟨[.intNum 1, .intNum 2]⟩], ⟨3⟩⟩
    ∧ (⟨[.intNum 1, .intNum 2]⟩ : Row).get_column ⟨"a", none⟩
        ⟨[.column ⟨"a", none⟩, .column ⟨"b", none⟩]⟩ = some (.intNum 1)
    ∧ (⟨[.intNum 1, .intNum 2]⟩ : Row).get_column ⟨"b", none⟩
        ⟨[.column ⟨"a", none⟩, .column ⟨"b", none⟩]⟩ = some (.intNum 2)
    ∧ Value.intNum 1 ≠ Value.intNum 2 := by
  exact ⟨by decide, by decide, by decide, by decide⟩

/-- Claim C4 (amended): when the hash function is injective on the join-key
values occurring in the inputs, the LeftOuter join emits, per left row in
left scan order, either its matches or — when no right row's key value equals
the left key — exactly one row of the left items followed by `|rightSchema|`
nulls. -/
theorem C4_left_outer_null_padding (hf : Value → Nat) (kL kR : Row → Value)
    (L : List Row) (ls : Schema) (R : List Row) (rs : Schema) (on_ : JoinOn)
    (cost : Cost) (step : QueryStep)
    (hkL : ∀ l ∈ L, l.get_column on_.left ls = some (kL l))
    (hkR : ∀ r ∈ R, r.get_column on_.right rs = some (kR r))
    (hinj : ∀ l ∈ L, ∀ r ∈ R, hf (kL l) = hf (kR r) → kL l = kR r)
    (hrun : hash_join hf L ls R rs on_ .leftOuter cost = .ok step) :
    step.rows = L.flatMap (leftOuterEmit kL kR R rs)
    ∧ ∀ l ∈ L, (∀ r ∈ R, kR r ≠ kL l) →
        leftOuterEmit kL kR R rs l =
          [⟨l.items ++ List.replicate rs.columns.length Value.null⟩] := by
  rw [hash_join_spec hf kL kR L ls R rs on_ .leftOuter cost hkL hkR] at hrun
  injection hrun with hrun
  subst hrun
  constructor
  · simp only
    refine List.flatMap_congr fun l hl => ?_
    unfold emitRow leftOuterEmit
    have hfilt : (R.filter fun r => hf (kR r) = hf (kL l)) =
        R.filter fun r => kR r = kL l := by
      refine List.filter_congr fun r hr => ?_
      by_cases hveq : kR r = kL l
      · simp [hveq]
      · simp only [decide_eq_decide]
        constructor
        · intro hheq
          exact absurd (hinj l hl r hr hheq.symm).symm hveq
        · intro hveq2
          exact absurd hveq2 hveq
    rw [hfilt]
    by_cases hempty : (R.filter fun r => kR r = kL l).isEmpty
    · rw [if_pos hempty, if_pos hempty]
      rw [List.map_const', Schema.columns]
    · rw [if_neg hempty, if_neg hempty]
  · intro l _ hnone
    unfold leftOuterEmit
    have hnil : (R.filter fun r => kR r = kL l) = [] :=
      List.filter_eq_nil.mpr fun r hr => by simp [hnone r hr]
    rw [hnil]
    rfl

/-- Witness for C4 at a concrete join: the unmatched left row `[3]` yields
exactly the null-padded row, in left scan order after the matched row. -/
theorem C4_left_outer_null_padding_witness :
    ([(⟨[.intNum 1, .intNum 1]⟩ : Row), ⟨[.intNum 3, .null]⟩] =
      [(⟨[.intNum 1]⟩ : Row), ⟨[.intNum 3]⟩].flatMap
        (leftOuterEmit (fun q => q.items.getD 0 .null) (fun q => q.items.getD 0 .null)
          [⟨[.intNum 1]⟩] ⟨[.column ⟨"b", none⟩]⟩))
    ∧ ∀ l ∈ [(⟨[.intNum 1]⟩ : Row), ⟨[.intNum 3]⟩],
        (∀ r ∈ [(⟨[.intNum 1]⟩ : Row)],
          (fun q : Row => q.items.getD 0 .null) r ≠
            (fun q : Row => q.items.getD 0 .null) l) →
        leftOuterEmit (fun q => q.items.getD 0 .null) (fun q => q.items.getD 0 .null)
            [⟨[.intNum 1]⟩] ⟨[.column ⟨"b", none⟩]⟩ l =
          [⟨l.items ++ List.replicate 1 Value.null⟩] := by
  have := C4_left_outer_null_padding
    (fun v => (v.as_i64.getD 0).toNat)
    (fun q => q.items.getD 0 .null) (fun q => q.items.getD 0 .null)
    [⟨[.intNum 1]⟩, ⟨[.intNum 3]⟩] ⟨[.column ⟨"a", none⟩]⟩
    [⟨[.intNum 1]⟩] ⟨[.column ⟨"b", none⟩]⟩
    ⟨⟨"a", none⟩, ⟨"b", none⟩⟩ Cost.new
    ⟨⟨[.column ⟨"a", none⟩, .column ⟨"b", none⟩]⟩,
     [⟨[.intNum 1, .intNum 1]⟩, ⟨[.intNum 3, .null]⟩], ⟨5⟩⟩
    (by decide) (by decide) (by decide) (by decide)
  exact ⟨this.1, this.2⟩

/-- Counterexample to C4 as stated: under a hash collision a left row with no
value-matching right row is nevertheless joined instead of null-padded. -/
theorem C4_left_outer_counterexample :
    hash_join (fun _ => 0) [⟨[.intNum 1]⟩] ⟨[.column ⟨"a", none⟩]⟩
        [⟨[.intNum 2]⟩] ⟨[.column ⟨"b", none⟩]⟩ ⟨⟨"a", none⟩, ⟨"b", none⟩⟩
        .leftOuter Cost.new =
      .ok ⟨⟨[.column ⟨"a", none⟩, .column ⟨"b", none⟩]⟩,
           [⟨[.intNum 1, .intNum 2]⟩], ⟨3⟩⟩
    ∧ Value.intNum 2 ≠ Value.intNum 1
    ∧ [(⟨[.intNum 1, .intNum 2]⟩ : Row)] ≠ [⟨[.intNum 1, .null]⟩] := by
  exact ⟨by decide, by decide, by decide⟩

/-- Claim C6: for a non-empty field list whose needed evaluations succeed, an
all-aggregate projection yields exactly one row holding the aggregate results
(one value per field), and a mixed projection yields exactly one row per
child row, aggregate fields taking the precomputed aggregate value and the
rest evaluated row-locally. -/
theorem C6_project_row_counts (rows : List Row) (schema : Schema)
    (fields : List Expr) (cost : Cost) (hne : fields ≠ []) :
    (∀ g : Nat → Value,
      (∀ f ∈ fields, is_aggregate_expr f = true) →
      (∀ p ∈ fields.enum, evaluate_aggregate_expr rows schema p.2 = .ok (g p.1)) →
      project_fields rows schema fields cost =
        .ok ([⟨fields.enum.map fun p => g p.1⟩], cost))
    ∧ (∀ (g : Nat → Value) (e : Row → Nat → Value),
      (∃ f ∈ fields, is_aggregate_expr f = false) →
      (∀ p ∈ fields.enum, is_aggregate_expr p.2 = true →
        evaluate_aggregate_expr rows schema p.2 = .ok (g p.1)) →
      (∀ r ∈ rows, ∀ p ∈ fields.enum, is_aggregate_expr p.2 = false →
        evaluate_expr r schema p.2 = .ok (e r p.1)) →
      project_fields rows schema fields cost =
        .ok (rows.map fun r => ⟨fields.enum.map fun p =>
              if is_aggregate_expr p.2 then g p.1 else e r p.1⟩,
             ⟨cost.rows_processed + rows.length⟩)) :=
  ⟨fun g hall hev => project_fields_all_aggregate rows schema fields cost g hall hev,
   fun g e hmix hev hrow => project_fields_mixed rows schema fields cost g e hmix hev hrow⟩

/-- Witness for C6: a concrete all-aggregate projection (one row out) and a
concrete mixed projection (one row per child row, cost +1 per child row). -/
theorem C6_project_row_counts_witness :
    project_fields [⟨[]⟩] ⟨[]⟩
        [.functionCall (.aggregate .sum) (.cons (.literal (.intNum 2)) .nil)] Cost.new =
      .ok ([⟨[.intNum 2]⟩], Cost.new)
    ∧ project_fields [⟨[.intNum 5]⟩] ⟨[.column ⟨"a", none⟩]⟩
        [.column ⟨"a", none⟩, .functionCall (.aggregate .sum) (.cons (.literal (.intNum 2)) .nil)]
        Cost.new =
      .ok ([⟨[.intNum 5, .intNum 2]⟩], ⟨1⟩) := by
  constructor
  · have := (C6_project_row_counts [⟨[]⟩] ⟨[]⟩
        [.functionCall (.aggregate .sum) (.cons (.literal (.intNum 2)) .nil)] Cost.new
        (List.cons_ne_nil _ _)).1 (fun _ => .intNum 2) (by decide) (by decide)
    simpa using this
  · exact (C6_project_row_counts _ _ _ Cost.new (List.cons_ne_nil _ _)).2
      (fun _ => .intNum 2) (fun _ _ => .intNum 5)
      ⟨.column ⟨"a", none⟩, by simp, rfl⟩
      (by decide) (by decide)

/-- Claim C10: `sum` over an empty row collection is the integer 0, and an
aggregate-only projection whose fields are `sum` calls still emits exactly
one row of zeroes when the child produced no rows. -/
theorem C10_sum_empty_rows_zero :
    (∀ (schema : Schema) (args : ExprArgs), args ≠ .nil →
      evaluate_function_call (.aggregate .sum) args [] schema = .ok (.intNum 0))
    ∧ (∀ (schema : Schema) (fields : List Expr) (cost : Cost),
        (∀ f ∈ fields, ∃ args, args ≠ .nil ∧ f = .functionCall (.aggregate .sum) args) →
        project_fields [] schema fields cost =
          .ok ([⟨List.replicate fields.length (.intNum 0)⟩], cost)) := by
  have h1 : ∀ (schema : Schema) (args : ExprArgs), args ≠ .nil →
      evaluate_function_call (.aggregate .sum) args [] schema = .ok (.intNum 0) := by
    intro schema args hne
    cases args with
    | nil => exact absurd rfl hne
    | cons a as_ => rfl
  refine ⟨h1, ?_⟩
  intro schema fields cost hf
  have hall : ∀ f ∈ fields, is_aggregate_expr f = true := by
    intro f hmem
    obtain ⟨args, _, rfl⟩ := hf f hmem
    rfl
  have hev : ∀ p ∈ fields.enum,
      evaluate_aggregate_expr [] schema p.2 = .ok (Value.intNum 0) := by
    intro p hp
    have hmem : p.2 ∈ fields := List.get?_mem (List.mem_enum_iff_get?.mp hp)
    obtain ⟨args, hne, heq⟩ := hf p.2 hmem
    rw [heq]
    exact h1 schema args hne
  have := project_fields_all_aggregate [] schema fields cost (fun _ => .intNum 0) hall hev
  rw [this]
  congr 2
  rw [List.map_const', List.enum_length]

/-- Witness for C10: a concrete `sum` projection over an empty child. -/
theorem C10_sum_empty_rows_zero_witness :
    evaluate_function_call (.aggregate .sum) (.cons (.literal (.intNum 7)) .nil) [] ⟨[]⟩ =
      .ok (.intNum 0)
    ∧ project_fields [] ⟨[]⟩
        [.functionCall (.aggregate .sum) (.cons (.literal (.intNum 7)) .nil)] Cost.new =
      .ok ([⟨[.intNum 0]⟩], Cost.new) := by
  refine ⟨C10_sum_empty_rows_zero.1 ⟨[]⟩ _ (by intro hx; cases hx), ?_⟩
  have := C10_sum_empty_rows_zero.2 ⟨[]⟩
    [.functionCall (.aggregate .sum) (.cons (.literal (.intNum 7)) .nil)] Cost.new
    (fun f hmem => by
      simp only [List.mem_singleton] at hmem
      exact ⟨.cons (.literal (.intNum 7)) .nil, ⟨(fun hx => by cases hx), hmem⟩⟩)
  simpa using this

/-!  Claim C5: order_by is a stable sort by the per-key comparator. -/

theorem foldl_orderStep_none (itof : Int → Nat) (schema : Schema) (a b : Row) :
    ∀ ks : List OrderByExpr, ks.foldl (orderStep itof schema a b) none = none := by
  intro ks
  induction ks with
  | nil => rfl
  | cons k ks ih => rw [List.foldl_cons]; exact ih

theorem foldl_orderStep_stick (itof : Int → Nat) (schema : Schema) (a b : Row)
    (o : Ordering) (ho : o ≠ .eq) :
    ∀ ks : List OrderByExpr, ks.foldl (orderStep itof schema a b) (some o) = some o := by
  intro ks
  induction ks with
  | nil => rfl
  | cons k ks ih =>
      rw [List.foldl_cons]
      rw [show orderStep itof schema a b (some o) k = some o from by
        simp only [orderStep]; rw [if_neg ho]]
      exact ih

theorem rowCompare_eq_specKeyCompare (itof : Int → Nat) (schema : Schema) :
    ∀ (ks : List OrderByExpr) (a b : Row),
      rowCompare itof schema ks a b = specKeyCompare itof schema ks a b := by
  intro ks
  induction ks with
  | nil => intro a b; rfl
  | cons k ks ih =>
      intro a b
      show List.foldl (orderStep itof schema a b)
        (orderStep itof schema a b (some .eq) k) ks = _
      cases hva : a.get_column k.column schema with
      | none =>
          rw [show orderStep itof schema a b (some .eq) k = none from by
            simp [orderStep, hva]]
          rw [show specKeyCompare itof schema (k :: ks) a b = none from by
            simp [specKeyCompare, hva]]
          exact foldl_orderStep_none itof schema a b ks
      | some va =>
        cases hvb : b.get_column k.column schema with
        | none =>
            rw [show orderStep itof schema a b (some .eq) k = none from by
              simp [orderStep, hva, hvb]]
            rw [show specKeyCompare itof schema (k :: ks) a b = none from by
              simp [specKeyCompare, hva, hvb]]
            exact foldl_orderStep_none itof schema a b ks
        | some vb =>
          cases hc : compare_values itof va vb with
          | none =>
              rw [show orderStep itof schema a b (some .eq) k = none from by
                simp [orderStep, hva, hvb, hc]]
              rw [show specKeyCompare itof schema (k :: ks) a b = none from by
                simp [specKeyCompare, hva, hvb, hc]]
              exact foldl_orderStep_none itof schema a b ks
          | some c =>
              by_cases heq : (match k.order with | .asc => c | .desc => flip c) = .eq
              · rw [show orderStep itof schema a b (some .eq) k = some .eq from by
                  simp [orderStep, hva, hvb, hc, heq]]
                rw [show specKeyCompare itof schema (k :: ks) a b =
                    specKeyCompare itof schema ks a b from by
                  simp [specKeyCompare, hva, hvb, hc, heq]]
                exact ih a b
              · rw [show orderStep itof schema a b (some .eq) k =
                    some (match k.order with | .asc => c | .desc => flip c) from by
                  simp [orderStep, hva, hvb, hc]]
                rw [show specKeyCompare itof schema (k :: ks) a b =
                    some (match k.order with | .asc => c | .desc => flip c) from by
                  simp [specKeyCompare, hva, hvb, hc, heq]]
                exact foldl_orderStep_stick itof schema a b _ heq ks

/-- Claim C5: on a row collection whose rows are pairwise comparable under
the keys (no comparator panic), and on which the induced "sorts no later
than" relation is total and transitive, `order_by` succeeds and returns a
permutation of the input that is pairwise ordered by the comparator, keeps
the relative input order of rows that compare `Equal` on all keys
(stability), and the comparator itself consults each key in order — per-kind
value comparison, flipped for `Desc` keys, later keys only on ties — as the
spec-side comparator `specKeyCompare` states. -/
theorem C5_order_by_stable_sort (itof : Int → Nat) (rows : List Row) (schema : Schema)
    (keys : List OrderByExpr)
    (hne : keys ≠ [])
    (hcmp : ∀ a ∈ rows, ∀ b ∈ rows, (rowCompare itof schema keys a b).isSome = true)
    (htot : ∀ a ∈ rows, ∀ b ∈ rows,
      rowLE itof schema keys a b ∨ rowLE itof schema keys b a)
    (htrans : ∀ a ∈ rows, ∀ b ∈ rows, ∀ c ∈ rows,
      rowLE itof schema keys a b → rowLE itof schema keys b c →
        rowLE itof schema keys a c) :
    ∃ out, order_by itof rows schema keys = some out ∧
      out.Perm rows ∧
      out.Pairwise (rowLE itof schema keys) ∧
      (∀ a b : Row, [a, b].Sublist rows →
        rowCompare itof schema keys a b = some .eq → [a, b].Sublist out) ∧
      (∀ a b : Row, rowCompare itof schema keys a b =
        specKeyCompare itof schema keys a b) := by
  refine ⟨List.insertionSort (rowLE itof schema keys) rows, ?_, ?_, ?_, ?_, ?_⟩
  · have hall : (rows.all fun a => rows.all fun b =>
        (rowCompare itof schema keys a b).isSome) = true := by
      simp only [List.all_eq_true]
      exact fun a ha b hb => hcmp a ha b hb
    unfold order_by
    rw [if_pos hall]
  · exact List.perm_insertionSort _ rows
  · have key : List.insertionSort (rowLE itof schema keys) rows =
        (List.insertionSort
          (fun x y : {x : Row // x ∈ rows} => rowLE itof schema keys x.1 y.1)
          rows.attach).map Subtype.val := by
      have hl : ∀ a ∈ rows.attach, ∀ b ∈ rows.attach,
          (fun x y : {x : Row // x ∈ rows} => rowLE itof schema keys x.1 y.1) a b ↔
            rowLE itof schema keys a.1 b.1 := fun _ _ _ _ => Iff.rfl
      have := List.map_insertionSort
        (fun x y : {x : Row // x ∈ rows} => rowLE itof schema keys x.1 y.1)
        (rowLE itof schema keys) Subtype.val rows.attach hl
      rw [List.attach_map_subtype_val] at this
      exact this.symm
    haveI : IsTotal {x : Row // x ∈ rows}
        (fun x y => rowLE itof schema keys x.1 y.1) :=
      ⟨fun x y => htot x.1 x.2 y.1 y.2⟩
    haveI : IsTrans {x : Row // x ∈ rows}
        (fun x y => rowLE itof schema keys x.1 y.1) :=
      ⟨fun x y z hxy hyz => htrans x.1 x.2 y.1 y.2 z.1 z.2 hxy hyz⟩
    have hsorted := List.sorted_insertionSort
      (fun x y : {x : Row // x ∈ rows} => rowLE itof schema keys x.1 y.1)
      rows.attach
    rw [key]
    exact List.pairwise_map.mpr hsorted
  · intro a b hsub heq
    have hab : rowLE itof schema keys a b := by
      unfold rowLE
      rw [heq]
      intro hx
      cases hx
    exact List.pair_sublist_insertionSort hab hsub
  · exact fun a b => rowCompare_eq_specKeyCompare itof schema keys a b

theorem C5_order_by_stable_sort_witness :
    ∃ out, order_by (fun _ => 0) [⟨[.intNum 1]⟩, ⟨[.intNum 2]⟩]
        ⟨[.column ⟨"a", none⟩]⟩ [⟨⟨"a", none⟩, .desc⟩] = some out ∧
      out.Perm [⟨[.intNum 1]⟩, ⟨[.intNum 2]⟩] ∧
      out.Pairwise (rowLE (fun _ => 0) ⟨[.column ⟨"a", none⟩]⟩ [⟨⟨"a", none⟩, .desc⟩]) ∧
      (∀ a b : Row, [a, b].Sublist [⟨[.intNum 1]⟩, ⟨[.intNum 2]⟩] →
        rowCompare (fun _ => 0) ⟨[.column ⟨"a", none⟩]⟩ [⟨⟨"a", none⟩, .desc⟩] a b =
          some .eq →
        [a, b].Sublist out) ∧
      (∀ a b : Row, rowCompare (fun _ => 0) ⟨[.column ⟨"a", none⟩]⟩
          [⟨⟨"a", none⟩, .desc⟩] a b =
        specKeyCompare (fun _ => 0) ⟨[.column ⟨"a", none⟩]⟩ [⟨⟨"a", none⟩, .desc⟩] a b) :=
  C5_order_by_stable_sort (fun _ => 0) [⟨[.intNum 1]⟩, ⟨[.intNum 2]⟩]
    ⟨[.column ⟨"a", none⟩]⟩ [⟨⟨"a", none⟩, .desc⟩]
    (by decide) (by decide) (by decide) (by decide)

/-!  Claim C9: cost accounting of the executed operators. -/

theorem foldlM_cost {σ α : Type} (step : σ × Cost → α → Outcome (σ × Cost))
    (hstep : ∀ acc x out, step acc x = .ok out →
      out.2.rows_processed = acc.2.rows_processed + 1) :
    ∀ (l : List α) (acc out : σ × Cost),
      l.foldlM step acc = .ok out →
      out.2.rows_processed = acc.2.rows_processed + l.length := by
  intro l
  induction l with
  | nil =>
      intro acc out h
      cases h
      rfl
  | cons x l ih =>
      intro acc out h
      rw [List.foldlM_cons] at h
      cases hs : step acc x with
      | error e => rw [hs, errBind] at h; cases h
      | ok mid =>
          rw [hs, okBind] at h
          have h1 := hstep acc x mid hs
          have h2 := ih mid out h
          simp only [List.length_cons]
          omega

theorem all_of_filter_length_eq {α : Type} {l : List α} {p : α → Bool}
    (h : (l.filter p).length = l.length) : ∀ a ∈ l, p a = true := by
  intro a ha
  by_contra hpa
  have := length_filter_lt_of_exists_not
    (l := l) (p := p) ⟨a, ha, by simpa using hpa⟩
  omega

theorem agg_fold_length (rows : List Row) (schema : Schema) :
    ∀ (l : List (Nat × Expr)) (acc res : List (Nat × Value)),
      (l.foldlM
        (fun acc p =>
          if is_aggregate_expr p.2 then do
            let v ← evaluate_aggregate_expr rows schema p.2
            pure (acc ++ [(p.1, v)])
          else pure acc)
        acc : Outcome (List (Nat × Value))) = .ok res →
      res.length = acc.length + (l.filter fun p => is_aggregate_expr p.2).length := by
  intro l
  induction l with
  | nil =>
      intro acc res h
      cases h
      simp
  | cons p l ih =>
      intro acc res h
      rw [List.foldlM_cons] at h
      cases ha : is_aggregate_expr p.2 with
      | false =>
          rw [ha] at h
          simp only [Bool.false_eq_true, if_false] at h
          rw [show ((pure acc : Outcome (List (Nat × Value))) >>= fun a =>
              List.foldlM _ a l) = List.foldlM _ acc l from rfl] at h
          rw [List.filter_cons_of_neg (by simp [ha])]
          exact ih acc res h
      | true =>
          rw [ha] at h
          simp only [if_true] at h
          cases he : evaluate_aggregate_expr rows schema p.2 with
          | error e =>
              rw [he] at h
              cases h
          | ok v =>
              rw [he, okBind] at h
              rw [show ((pure (acc ++ [(p.1, v)]) : Outcome (List (Nat × Value))) >>= fun a =>
                  List.foldlM _ a l) = List.foldlM _ (acc ++ [(p.1, v)]) l from rfl] at h
              have := ih (acc ++ [(p.1, v)]) res h
              rw [List.filter_cons_of_pos (by simp [ha])]
              simp only [List.length_append, List.length_cons, List.length_nil] at this ⊢
              omega

theorem project_fields_cost (rows : List Row) (schema : Schema)
    (fields : List Expr) (cost : Cost) (out : List Row × Cost)
    (h : project_fields rows schema fields cost = .ok out) :
    out.2.rows_processed = cost.rows_processed +
      (if fields.all is_aggregate_expr then 0 else rows.length) := by
  unfold project_fields at h
  cases h1 : (fields.enum.foldlM
      (fun acc p =>
        if is_aggregate_expr p.2 then do
          let v ← evaluate_aggregate_expr rows schema p.2
          pure (acc ++ [(p.1, v)])
        else pure acc)
      ([] : List (Nat × Value)) : Outcome (List (Nat × Value))) with
  | error e => rw [h1, errBind] at h; cases h
  | ok res =>
      rw [h1, okBind] at h
      have hlen := agg_fold_length rows schema fields.enum [] res h1
      simp only [List.length_nil, Nat.zero_add] at hlen
      by_cases hl : res.length = fields.length
      · rw [if_pos hl] at h
        have hallp : ∀ p ∈ fields.enum, is_aggregate_expr p.2 = true := by
          apply all_of_filter_length_eq
          rw [← hlen, hl, List.enum_length]
        have hall : fields.all is_aggregate_expr = true := by
          rw [List.all_eq_true]
          intro f hf
          obtain ⟨i, hi⟩ := List.mem_iff_get?.mp hf
          exact hallp (i, f) (List.mk_mem_enum_iff_get?.mpr hi)
        rw [if_pos hall]
        cases h2 : (fields.enum.mapM (fun p =>
            match aggGet res p.1 with
            | some v => pure v
            | none => throw (.panicked "aggregate result unwrap")) :
            Outcome (List Value)) with
        | error e => rw [h2, errBind] at h; cases h
        | ok items =>
            rw [h2, okBind] at h
            cases h
            rfl
      · rw [if_neg hl] at h
        have hnall : ¬ (fields.all is_aggregate_expr = true) := by
          intro hall
          apply hl
          rw [hlen, List.filter_eq_self.mpr, List.enum_length]
          intro p hp
          rw [List.all_eq_true] at hall
          exact hall p.2 (List.get?_mem (List.mem_enum_iff_get?.mp hp))
        rw [if_neg hnall]
        cases h3 : (rows.foldlM
            (fun acc row => do
              let cost := acc.2.increment_rows_processed
              let r ← project_field_row row schema fields res
              pure (acc.1 ++ [r], cost))
            (([] : List Row), cost) : Outcome (List Row × Cost)) with
        | error e => rw [h3, errBind] at h; cases h
        | ok acc2 =>
            rw [h3, okBind] at h
            cases h
            refine foldlM_cost _ ?_ rows ([], cost) _ h3
            intro acc row o hstep
            cases hr : project_field_row row schema fields res with
            | error e => rw [hr, errBind] at hstep; cases hstep
            | ok r =>
                rw [hr, okBind] at hstep
                cases hstep
                rfl

theorem bind_eq_ok {α β : Type} {x : Outcome α} {f : α → Outcome β} {b : β}
    (h : (x >>= f) = .ok b) : ∃ a, x = .ok a ∧ f a = .ok b := by
  cases x with
  | error e => rw [errBind] at h; cases h
  | ok a =>
      rw [okBind] at h
      exact ⟨a, rfl, h⟩

theorem hash_join_cost (hf : Value → Nat) (L : List Row) (ls : Schema)
    (R : List Row) (rs : Schema) (on_ : JoinOn) (jt : JoinType) (cost : Cost)
    (step : QueryStep)
    (h : hash_join hf L ls R rs on_ jt cost = .ok step) :
    step.cost.rows_processed = cost.rows_processed + L.length + R.length + L.length := by
  unfold hash_join at h
  obtain ⟨acc1, h1, h⟩ := bind_eq_ok h
  have hc1 : acc1.2.rows_processed = cost.rows_processed + L.length := by
    refine foldlM_cost _ ?_ L (mapEmpty, cost) acc1 h1
    intro acc x o hstep
    cases hg : x.get_column on_.left ls with
    | none => rw [hg] at hstep; cases hstep
    | some v => rw [hg] at hstep; cases hstep; rfl
  obtain ⟨m1, c1⟩ := acc1
  dsimp only at h hc1
  obtain ⟨acc2, h2, h⟩ := bind_eq_ok h
  have hc2 : acc2.2.rows_processed = c1.rows_processed + R.length := by
    refine foldlM_cost _ ?_ R (m1, c1) acc2 h2
    intro acc x o hstep
    cases hg : x.get_column on_.right rs with
    | none => rw [hg] at hstep; cases hstep
    | some v => rw [hg] at hstep; cases hstep; rfl
  obtain ⟨m2, c2⟩ := acc2
  dsimp only at h hc2
  obtain ⟨acc3, h3, h⟩ := bind_eq_ok h
  have hc3 : acc3.2.rows_processed = c2.rows_processed + L.length := by
    refine foldlM_cost _ ?_ L ([], c2) acc3 h3
    intro acc x o hstep
    cases hg : x.get_column on_.left ls with
    | none => rw [hg] at hstep; cases hstep
    | some v =>
        rw [hg] at hstep
        dsimp only at hstep
        cases hb : m2 (hf v) with
        | none => rw [hb] at hstep; cases hstep; rfl
        | some rhs =>
            rw [hb] at hstep
            dsimp only at hstep
            cases hemp : rhs.isEmpty with
            | true =>
                rw [hemp] at hstep
                simp only [if_true] at hstep
                cases jt with
                | leftOuter => cases hstep; rfl
                | inner => cases hstep; rfl
            | false =>
                rw [hemp] at hstep
                simp only [Bool.false_eq_true, if_false] at hstep
                cases hstep
                rfl
  obtain ⟨rows3, c3⟩ := acc3
  dsimp only at h hc3
  cases h
  dsimp only
  omega

/-- Claim C9 (amended): the reported `rows_processed` of each executed
operator is its child runs' accumulated cost plus the operator's own
increments — Filter adds +1 per child row, Join adds +1 per left row in
build, +1 per right row in probe and +1 per left row in emit, Limit adds
nothing, and Project adds +1 per child row in the per-row pass only, which
runs exactly when not every field is an aggregate: the aggregate-scan pass
of `project_fields` performs no cost increments (contrary to the claim's
"+1 per child row scanned in both the aggregate-scan pass and the per-row
pass"). -/
theorem C9_cost_additivity (hf : Value → Nat) (rowSource : TableName → List Value)
    (catalog : Catalog) :
    (∀ (p : PhysicalPlan) (e : Expr) (stepc step : QueryStep),
      run_physical_plan hf rowSource catalog p = .ok stepc →
      run_physical_plan hf rowSource catalog (.filter p e) = .ok step →
      step.cost.rows_processed = stepc.cost.rows_processed + stepc.rows.length) ∧
    (∀ (p : PhysicalPlan) (fields : List Expr) (stepc step : QueryStep),
      run_physical_plan hf rowSource catalog p = .ok stepc →
      run_physical_plan hf rowSource catalog (.project p fields) = .ok step →
      step.cost.rows_processed = stepc.cost.rows_processed +
        (if fields.all is_aggregate_expr then 0 else stepc.rows.length)) ∧
    (∀ (pl pr : PhysicalPlan) (jt : JoinType) (on_ : JoinOn) (L R step : QueryStep),
      run_physical_plan hf rowSource catalog pl = .ok L →
      run_physical_plan hf rowSource catalog pr = .ok R →
      run_physical_plan hf rowSource catalog (.join pl pr jt on_) = .ok step →
      step.cost.rows_processed =
        (L.cost.rows_processed + R.cost.rows_processed) +
          L.rows.length + R.rows.length + L.rows.length) ∧
    (∀ (p : PhysicalPlan) (n : Nat) (stepc step : QueryStep),
      run_physical_plan hf rowSource catalog p = .ok stepc →
      run_physical_plan hf rowSource catalog (.limit n p) = .ok step →
      step.cost.rows_processed = stepc.cost.rows_processed) := by
  refine ⟨?_, ?_, ?_, ?_⟩
  · intro p e stepc step hc h
    simp only [run_physical_plan] at h
    rw [hc, okBind] at h
    cases h2 : (stepc.rows.foldlM
        (fun acc row => do
          let cost := acc.2.increment_rows_processed
          if ← apply_predicate row stepc.schema e then
            pure (acc.1 ++ [row], cost)
          else
            pure (acc.1, cost))
        (([] : List Row), stepc.cost) : Outcome (List Row × Cost)) with
    | error er => rw [h2, errBind] at h; cases h
    | ok acc =>
        rw [h2, okBind] at h
        cases h
        refine foldlM_cost _ ?_ stepc.rows ([], stepc.cost) acc h2
        intro a x o hstep
        cases hp : apply_predicate x stepc.schema e with
        | error er =>
            rw [show (do
                let cost := a.2.increment_rows_processed
                if ← apply_predicate x stepc.schema e then
                  pure (a.1 ++ [x], cost)
                else
                  pure (a.1, cost) : Outcome (List Row × Cost)) =
              (apply_predicate x stepc.schema e) >>= (fun b =>
                if b then pure (a.1 ++ [x], a.2.increment_rows_processed)
                else pure (a.1, a.2.increment_rows_processed)) from rfl,
              hp, errBind] at hstep
            cases hstep
        | ok b =>
            rw [show (do
                let cost := a.2.increment_rows_processed
                if ← apply_predicate x stepc.schema e then
                  pure (a.1 ++ [x], cost)
                else
                  pure (a.1, cost) : Outcome (List Row × Cost)) =
              (apply_predicate x stepc.schema e) >>= (fun b =>
                if b then pure (a.1 ++ [x], a.2.increment_rows_processed)
                else pure (a.1, a.2.increment_rows_processed)) from rfl,
              hp, okBind] at hstep
            cases b with
            | true => simp only [if_true] at hstep; cases hstep; rfl
            | false =>
                simp only [Bool.false_eq_true, if_false] at hstep
                cases hstep
                rfl
  · intro p fields stepc step hc h
    simp only [run_physical_plan] at h
    rw [hc, okBind] at h
    cases h2 : project_fields stepc.rows stepc.schema fields stepc.cost with
    | error er => rw [h2, errBind] at h; cases h
    | ok out =>
        rw [h2, okBind] at h
        cases h3 : project_schema stepc.schema fields with
        | error er => rw [h3, errBind] at h; cases h
        | ok schema2 =>
            rw [h3, okBind] at h
            cases h
            exact project_fields_cost stepc.rows stepc.schema fields stepc.cost out h2
  · intro pl pr jt on_ L R step hl hr h
    simp only [run_physical_plan] at h
    rw [hl, okBind, hr, okBind] at h
    have := hash_join_cost hf L.rows L.schema R.rows R.schema on_ jt
      (L.cost.extendCost R.cost) step h
    simpa [Cost.extendCost] using this
  · intro p n stepc step hc h
    simp only [run_physical_plan] at h
    rw [hc, okBind] at h
    cases h
    rfl

theorem C9_cost_additivity_witness :
    (⟨⟨[.named "sum"]⟩, [⟨[.intNum 3]⟩], ⟨3⟩⟩ : QueryStep).cost.rows_processed =
      (⟨⟨[.column ⟨"animal_id", none⟩, .column ⟨"animal_name", none⟩,
           .column ⟨"species_id", none⟩]⟩,
        [⟨[.intNum 1, .str "horse", .intNum 1]⟩,
         ⟨[.intNum 2, .str "dog", .intNum 1]⟩,
         ⟨[.intNum 3, .str "snake", .intNum 2]⟩], ⟨3⟩⟩ : QueryStep).cost.rows_processed +
      (if ([.functionCall (.aggregate .sum) (.cons (.literal (.intNum 1)) .nil)] :
            List Expr).all is_aggregate_expr then 0
       else ([⟨[.intNum 1, .str "horse", .intNum 1]⟩,
              ⟨[.intNum 2, .str "dog", .intNum 1]⟩,
              ⟨[.intNum 3, .str "snake", .intNum 2]⟩] : List Row).length) :=
  (C9_cost_additivity (fun _ => 0) staticRowSource staticCatalog).2.1
    (.tableScan "animal" none)
    [.functionCall (.aggregate .sum) (.cons (.literal (.intNum 1)) .nil)]
    ⟨⟨[.column ⟨"animal_id", none⟩, .column ⟨"animal_name", none⟩,
        .column ⟨"species_id", none⟩]⟩,
      [⟨[.intNum 1, .str "horse", .intNum 1]⟩,
       ⟨[.intNum 2, .str "dog", .intNum 1]⟩,
       ⟨[.intNum 3, .str "snake", .intNum 2]⟩], ⟨3⟩⟩
    ⟨⟨[.named "sum"]⟩, [⟨[.intNum 3]⟩], ⟨3⟩⟩
    rfl rfl

/-- The divergence from C9 as stated: the aggregate-scan pass of
`project_fields` performs no cost increments, so projecting a single
aggregate field over the three-row `animal` table reports the child's cost
of 3 unchanged, not the 3 + 3 the claim's "+1 per child row scanned in both
the aggregate-scan pass and the per-row pass" demands. -/
theorem C9_aggregate_pass_adds_no_cost_counterexample :
    (run_physical_plan (fun _ => 0) staticRowSource staticCatalog
        (.project (.tableScan "animal" none)
          [.functionCall (.aggregate .sum) (.cons (.literal (.intNum 1)) .nil)])).map
      (fun s => s.cost.rows_processed) = .ok 3
    ∧ (3 : Nat) ≠ 3 + 3 := by
  exact ⟨rfl, by decide⟩

end LBDB
